import Mathlib

/-!
# The simulator core of `riscv/sim.cc`

A shallow embedding of `sim_t` (constructor, `send_ipi`, `get_scr`, `run`,
`step`, `running`, `stop`) together with theorems about the interleaved
scheduler, the target memory allocator and the query surface.

Collaborators whose code lives outside `sim.cc` (the HTIF, the processors,
their MMUs, the interactive debugger, the host `mmap`) are parameters of the
model, gathered in `Env`.  Every call made to a collaborator is recorded as an
`Event`, so that statements about "what was called, on whom, in which order"
are statements about the returned event list.
-/

namespace Spike

/-- Ways in which a modelled call fails to return a simulator state. -/
inductive Fault where
  /-- The check `assert(mem != MAP_FAILED)` fired. -/
  | assertFailed
  /-- The element `procs[i]` was accessed with `i >= procs.size()`. -/
  | outOfBounds
  /-- An integer division by zero. -/
  | divByZero
  /-- The loop was not finished within the given number of iterations. -/
  | outOfFuel
  deriving DecidableEq, Repr

/-- Calls made by the simulator to its collaborators, in program order. -/
inductive Event where
  /-- The call `mmap(NULL, len, ...)` and whether it returned something other than
  `MAP_FAILED`. -/
  | mmap (len : Nat) (ok : Bool)
  /-- The call `htif->tick()`. -/
  | tick
  /-- One evaluation of `running()` inside `step`, with its result. -/
  | liveness (alive : Bool)
  /-- The call `procs[proc]->step(steps, noisy)`. -/
  | step (proc steps : Nat) (noisy : Bool)
  /-- The call `procs[proc]->mmu.yield_load_reservation()`. -/
  | yield (proc : Nat)
  /-- The call `procs[proc]->deliver_ipi()`. -/
  | ipi (proc : Nat)
  /-- The assignment `procs[proc]->tohost = val`. -/
  | tohost (proc val : Nat)
  /-- The call `interactive()`. -/
  | interactive
  deriving DecidableEq, Repr

/-- State of the collaborators: the `tohost` field of every processor object,
which `stop()` writes directly, and everything else (`ext`): HTIF state, the
remaining processor state, MMUs and target memory. -/
structure World (X : Type) where
  tohost : Nat → Nat
  ext : X

/-- The assignment `procs[i]->tohost = v`. -/
def World.setTohost {X : Type} (w : World X) (i v : Nat) : World X :=
  { w with tohost := fun j => if j = i then v else w.tohost j }

/-- Everything `sim.cc` uses but does not define. -/
structure Env (X : Type) where
  /-- Number of value bits of `size_t` on the host (`8 * sizeof(size_t)`). -/
  sizeBits : Nat
  /-- The constant `INTERLEAVE` of `sim.h`. -/
  INTERLEAVE : Nat
  /-- The constant `PGSIZE`. -/
  PGSIZE : Nat
  /-- The value of `(reg_t)sysconf(_SC_PAGESIZE)`. -/
  hostPageSize : Nat
  /-- Whether the `k`-th call of `mmap` (counted from 0), asking for `len` bytes, succeeds. -/
  mmapOk : Nat → Nat → Bool
  /-- Effect of `htif->tick()`. -/
  tick : World X → World X
  /-- Value of `htif->done()`. -/
  done : World X → Bool
  /-- Value of `procs[i]->running()`. -/
  procRunning : Nat → World X → Bool
  /-- Effect of `procs[i]->step(steps, noisy)`. -/
  procStep : Nat → Nat → Bool → World X → World X
  /-- Effect of `procs[i]->mmu.yield_load_reservation()`. -/
  yield_load_reservation : Nat → World X → World X
  /-- Effect of `procs[i]->deliver_ipi()`. -/
  deliver_ipi : Nat → World X → World X
  /-- Effect of `interactive()`, whose body is not part of `sim.cc`: one interaction
  cycle of the debugger, acting on the collaborators. -/
  interactive : World X → World X

/-- Number of values of `size_t`. -/
def Env.sizeMod {X : Type} (e : Env X) : Nat := 2 ^ e.sizeBits

/-- Addition of two `size_t` values. -/
def Env.wadd {X : Type} (e : Env X) (a b : Nat) : Nat := (a + b) % e.sizeMod

/-- Subtraction of two `size_t` values (`a - b` wraps around when `a < b`). -/
def Env.wsub {X : Type} (e : Env X) (a b : Nat) : Nat := (a + e.sizeMod - b) % e.sizeMod

/-- Multiplication of two `size_t` values. -/
def Env.wmul {X : Type} (e : Env X) (a b : Nat) : Nat := (a * b) % e.sizeMod

/-- The data members of `sim_t` that `sim.cc` reads and writes.  The vector
`procs` is represented by its size; the processor objects it points to are
part of `world`. -/
structure sim_t (X : Type) where
  /-- Value of `procs.size()`. -/
  nprocs : Nat
  memsz : Nat
  current_step : Nat
  current_proc : Nat
  debug : Bool
  world : World X

/-- Outcome of a modelled piece of code: the value it produces and the
collaborator calls it made, or a fault. -/
abbrev Outcome (α : Type) := Except Fault (α × List Event)

/-- Outcome of a modelled member function of `sim_t`. -/
abbrev Result (X : Type) := Outcome (sim_t X)

/-- Put the events `evs` in front of those of a continuation. -/
def emit {α : Type} (evs : List Event) : Outcome α → Outcome α
  | .ok (a, rest) => .ok (a, evs ++ rest)
  | .error f => .error f

/-- The function `sim_t::running()`: true iff some processor reports that it is running. -/
def sim_t.running {X : Type} (e : Env X) (s : sim_t X) : Bool :=
  (List.range s.nprocs).any (fun i => e.procRunning i s.world)

/-- The `for` loop of `sim_t::step(n, noisy)`, entered with loop variable `i`.
The first argument bounds the number of loop tests. -/
def sim_t.stepLoop {X : Type} (e : Env X) (n : Nat) (noisy : Bool) :
    Nat → Nat → sim_t X → Result X
  | 0, _, _ => .error .outOfFuel
  | fuel + 1, i, s =>
    if i < n then
      -- htif->tick();
      let s1 : sim_t X := { s with world := e.tick s.world }
      -- if (!running()) break;
      if sim_t.running e s1 = false then
        .ok (s1, [.tick, .liveness false])
      else
        -- steps = std::min(n - i, INTERLEAVE - current_step);
        let steps := min (e.wsub n i) (e.wsub e.INTERLEAVE s1.current_step)
        -- procs[current_proc]->step(steps, noisy);
        if s1.current_proc < s1.nprocs then
          let s2 : sim_t X :=
            { s1 with world := e.procStep s1.current_proc steps noisy s1.world }
          -- current_step += steps;
          let s3 : sim_t X := { s2 with current_step := e.wadd s2.current_step steps }
          if s3.current_step = e.INTERLEAVE then
            -- current_step = 0; procs[current_proc]->mmu.yield_load_reservation();
            let s4 : sim_t X :=
              { s3 with current_step := 0
                        world := e.yield_load_reservation s3.current_proc s3.world }
            -- if (++current_proc == procs.size()) current_proc = 0;
            let cp := e.wadd s4.current_proc 1
            let s5 : sim_t X := { s4 with current_proc := if cp = s4.nprocs then 0 else cp }
            emit [.tick, .liveness true, .step s1.current_proc steps noisy,
                  .yield s3.current_proc]
              (sim_t.stepLoop e n noisy fuel (e.wadd i steps) s5)
          else
            emit [.tick, .liveness true, .step s1.current_proc steps noisy]
              (sim_t.stepLoop e n noisy fuel (e.wadd i steps) s3)
        else
          .error .outOfBounds
    else
      .ok (s, [])

/-- The function `sim_t::step(n, noisy)`: the loop started with `i = 0`. -/
def sim_t.step {X : Type} (e : Env X) (fuel n : Nat) (noisy : Bool) (s : sim_t X) : Result X :=
  sim_t.stepLoop e n noisy fuel 0 s

/-- The function `sim_t::run()`.  The first argument bounds the number of tests of the
`while` condition, and the iterations of each `step` it calls. -/
def sim_t.run {X : Type} (e : Env X) : Nat → sim_t X → Result X
  | 0, _ => .error .outOfFuel
  | fuel + 1, s =>
    -- while (!htif->done())
    if e.done s.world = true then
      .ok (s, [])
    else if s.debug = true then
      -- interactive();
      emit [.interactive]
        (sim_t.run e fuel { s with world := e.interactive s.world })
    else
      -- step(INTERLEAVE, false);
      match sim_t.step e fuel e.INTERLEAVE false s with
      | .ok (s1, evs) => emit evs (sim_t.run e fuel s1)
      | .error f => .error f

/-- The loop `while (!htif->done()) htif->tick();` of `sim_t::stop()`. -/
def sim_t.stopLoop {X : Type} (e : Env X) : Nat → sim_t X → Result X
  | 0, _ => .error .outOfFuel
  | fuel + 1, s =>
    if e.done s.world = true then
      .ok (s, [])
    else
      emit [.tick] (sim_t.stopLoop e fuel { s with world := e.tick s.world })

/-- The function `sim_t::stop()`. -/
def sim_t.stop {X : Type} (e : Env X) (fuel : Nat) (s : sim_t X) : Result X :=
  -- procs[0]->tohost = 1;
  if 0 < s.nprocs then
    emit [.tohost 0 1]
      (sim_t.stopLoop e fuel { s with world := s.world.setTohost 0 1 })
  else
    .error .outOfBounds

/-- The function `sim_t::send_ipi(who)`. -/
def sim_t.send_ipi {X : Type} (e : Env X) (who : Nat) (s : sim_t X) : Result X :=
  if who < s.nprocs then
    .ok ({ s with world := e.deliver_ipi who s.world }, [.ipi who])
  else
    .ok (s, [])

/-- The value of `sim_t::get_scr(which)`, converted to the 64-bit `reg_t`. -/
def sim_t.get_scr_value {X : Type} (s : sim_t X) (which : Int) : Nat :=
  match which with
  | 0 => s.nprocs % 2 ^ 64
  | 1 => (s.memsz / 2 ^ 20) % 2 ^ 64
  | _ => 2 ^ 64 - 1

/-- The function `sim_t::get_scr(which)`: the returned register value, the
state after the call and the collaborator calls made. -/
def sim_t.get_scr {X : Type} (s : sim_t X) (which : Int) : Nat × sim_t X × List Event :=
  (sim_t.get_scr_value s which, s, [])

/-- Lines 22-24 of the constructor: the requested size in bytes. -/
def sim_t.memsz0 {X : Type} (e : Env X) (mem_mb : Nat) : Nat :=
  -- size_t memsz0 = (size_t)mem_mb << 20;
  let m := (mem_mb * 2 ^ 20) % e.sizeMod
  -- if (memsz0 == 0) memsz0 = 1L << (sizeof(size_t) == 8 ? 32 : 30);
  if m = 0 then (2 ^ (if e.sizeBits = 64 then 32 else 30)) % e.sizeMod else m

/-- Line 26 of the constructor: `std::max(PGSIZE, (reg_t)sysconf(_SC_PAGESIZE))`
stored in a `size_t`. -/
def sim_t.quantum {X : Type} (e : Env X) : Nat :=
  (max e.PGSIZE e.hostPageSize) % e.sizeMod

/-- The `while` loop of lines 34-36, entered with `mem == MAP_FAILED`, the
current `memsz`, and `k` calls of `mmap` made so far. -/
def sim_t.shrinkLoop {X : Type} (e : Env X) (quantum : Nat) :
    Nat → Nat → Nat → Outcome Nat
  | 0, _, _ => .error .outOfFuel
  | fuel + 1, k, memsz =>
    -- (memsz = memsz*10/11/quantum*quantum)
    let memsz1 := e.wmul memsz 10 / 11 / quantum * quantum
    if memsz1 = 0 then
      -- the loop ends with mem == MAP_FAILED, so assert(mem != MAP_FAILED) fires
      .error .assertFailed
    else if e.mmapOk k memsz1 = true then
      .ok (memsz1, [.mmap memsz1 true])
    else
      emit [.mmap memsz1 false] (sim_t.shrinkLoop e quantum fuel (k + 1) memsz1)

/-- Lines 26-39 of the constructor, with `m` the value of `memsz0` after line
24: the obtained `memsz`. -/
def sim_t.allocateFrom {X : Type} (e : Env X) (fuel m : Nat) : Outcome Nat :=
  let quantum := sim_t.quantum e
  -- memsz0 = memsz0/quantum*quantum;
  if quantum = 0 then
    .error .divByZero
  else
    let memsz0 := m / quantum * quantum
    -- memsz = memsz0; mem = mmap(NULL, memsz, ...);
    if e.mmapOk 0 memsz0 = true then
      .ok (memsz0, [.mmap memsz0 true])
    else
      emit [.mmap memsz0 false] (sim_t.shrinkLoop e quantum fuel 1 memsz0)

/-- Lines 22-39 of the constructor: the obtained `memsz`. -/
def sim_t.allocate {X : Type} (e : Env X) (fuel mem_mb : Nat) : Outcome Nat :=
  sim_t.allocateFrom e fuel (sim_t.memsz0 e mem_mb)

/-- The constructor `sim_t::sim_t(_nprocs, mem_mb, args)`, started with the
collaborators in state `w0`. -/
def sim_t.construct {X : Type} (e : Env X) (fuel : Nat) (w0 : World X) (_nprocs mem_mb : Nat) :
    Result X :=
  -- procs(_nprocs), current_step(0), current_proc(0), debug(false)
  let size := _nprocs
  match sim_t.allocate e fuel mem_mb with
  | .error f => .error f
  | .ok (memsz, evs) =>
    -- if (_nprocs == 0) _nprocs = 1;
    let n := if _nprocs = 0 then 1 else _nprocs
    -- for (size_t i = 0; i < _nprocs; i++) procs[i] = new processor_t(...);
    if (List.range n).all (fun i => decide (i < size)) = true then
      .ok ({ nprocs := size, memsz := memsz, current_step := 0, current_proc := 0,
             debug := false, world := w0 }, evs)
    else
      .error .outOfBounds

/-! ## Predicates and observations used in the statements -/

/-- The value `x` is representable in `size_t`. -/
def Env.fits {X : Type} (e : Env X) (x : Nat) : Prop := x < e.sizeMod

instance {X : Type} (e : Env X) (x : Nat) : Decidable (e.fits x) :=
  inferInstanceAs (Decidable (x < e.sizeMod))

/-- The scheduling-state invariant: `current_step < INTERLEAVE` and
`current_proc < procs.size()`. -/
def sim_t.inv {X : Type} (e : Env X) (s : sim_t X) : Prop :=
  s.current_step < e.INTERLEAVE ∧ s.current_proc < s.nprocs

instance {X : Type} (e : Env X) (s : sim_t X) : Decidable (s.inv e) :=
  inferInstanceAs (Decidable (_ ∧ _))

/-- The batches handed to processors, as pairs (processor index, batch size),
in program order. -/
def dispatches : List Event → List (Nat × Nat)
  | [] => []
  | .step p k _ :: rest => (p, k) :: dispatches rest
  | _ :: rest => dispatches rest

/-- Total number of steps in a list of batches. -/
def batchTotal (ds : List (Nat × Nat)) : Nat := (ds.map Prod.snd).sum

/-- Number of steps that the batches `ds` give to processor `p`. -/
def batchTotalOf (p : Nat) (ds : List (Nat × Nat)) : Nat :=
  batchTotal (ds.filter (fun d => d.1 == p))

/-- The processors on whose MMU `yield_load_reservation` was called, in order. -/
def yields : List Event → List Nat
  | [] => []
  | .yield p :: rest => p :: yields rest
  | _ :: rest => yields rest

/-- Number of calls of `htif->tick()`. -/
def ticks (evs : List Event) : Nat := evs.count .tick

/-- Every liveness check recorded in `evs` found some processor running. -/
def allAlive (evs : List Event) : Prop := Event.liveness false ∉ evs

instance (evs : List Event) : Decidable (allAlive evs) :=
  inferInstanceAs (Decidable (¬ _))

/-- The state after `htif->tick()`. -/
def sim_t.ticked {X : Type} (e : Env X) (s : sim_t X) : sim_t X :=
  { s with world := e.tick s.world }

/-- The batch size `min(n - i, INTERLEAVE - current_step)` without wrap-around. -/
def sim_t.batch {X : Type} (e : Env X) (n i : Nat) (s : sim_t X) : Nat :=
  min (n - i) (e.INTERLEAVE - s.current_step)

/-- The state after one loop iteration that does not complete the quantum. -/
def sim_t.afterBatch {X : Type} (e : Env X) (k : Nat) (noisy : Bool) (s : sim_t X) : sim_t X :=
  { s with current_step := s.current_step + k
           world := e.procStep s.current_proc k noisy (e.tick s.world) }

/-- The state after one loop iteration that completes the quantum. -/
def sim_t.afterQuantum {X : Type} (e : Env X) (k : Nat) (noisy : Bool) (s : sim_t X) : sim_t X :=
  { s with current_step := 0
           current_proc := if s.current_proc + 1 = s.nprocs then 0 else s.current_proc + 1
           world := e.yield_load_reservation s.current_proc
                      (e.procStep s.current_proc k noisy (e.tick s.world)) }

/-- The batches handed out from scheduling state `(cs, cp)` by a call with `r`
steps to go on `P` processors with quantum `IL`, in closed form: a first batch
that completes the running quantum of `cp`, whole quanta for the following
processors in cyclic order, and a last partial batch. -/
def schedule (IL P cs cp r : Nat) : List (Nat × Nat) :=
  if (cs + r) / IL = 0 then
    if r = 0 then [] else [(cp, r)]
  else
    ((cp, IL - cs) :: (List.range ((cs + r) / IL - 1)).map (fun j => ((cp + 1 + j) % P, IL)))
      ++ (if (cs + r) % IL = 0 then [] else [((cp + (cs + r) / IL) % P, (cs + r) % IL)])

/-! ## A concrete machine, used to run the model on explicit inputs -/

/-- A host with 64-bit `size_t`, quantum 3, and collaborators that only count
the HTIF ticks: the HTIF reports done from the second tick on, processor `p`
runs as long as fewer than `p + 4` ticks have happened, and the second call of
`mmap` is the first to succeed. -/
def demoEnv : Env Nat where
  sizeBits := 64
  INTERLEAVE := 3
  PGSIZE := 4
  hostPageSize := 2
  mmapOk := fun k len => decide (1 ≤ k) && decide (0 < len)
  tick := fun w => { w with ext := w.ext + 1 }
  done := fun w => decide (2 ≤ w.ext)
  procRunning := fun p w => decide (w.ext < p + 4)
  procStep := fun _ _ _ w => w
  yield_load_reservation := fun _ w => w
  deliver_ipi := fun _ w => w
  interactive := fun w => { w with ext := w.ext + 1 }

/-- The same host with processors that report running in every state. -/
def liveEnv : Env Nat :=
  { demoEnv with procRunning := fun _ _ => true }

/-- Collaborators on which no tick has happened and every `tohost` is 0. -/
def demoWorld : World Nat := { tohost := fun _ => 0, ext := 0 }

/-- Two processors, one step into the quantum of processor 1. -/
def demoSim : sim_t Nat :=
  { nprocs := 2, memsz := 64 * 2 ^ 20, current_step := 1, current_proc := 1,
    debug := false, world := demoWorld }

/-- The release rule for load reservations, checked along an event list while
following `current_step` (`cs`) and `current_proc` (`cp`) from their values on
entry: every batch goes to `cp`; a batch that brings `cs` to `IL` is directly
followed by one `yield` on that same processor, after which `cs` is 0 and `cp`
is the next index (0 after `P - 1`); a batch that leaves `cs` below `IL` is not
followed by a `yield`; and no `yield` occurs anywhere else. -/
def releasesAtBoundaries (IL P : Nat) : Nat → Nat → List Event → Bool
  | cs, cp, .step p k _ :: .yield q :: rest =>
    p == cp && q == cp && cs + k == IL &&
      releasesAtBoundaries IL P 0 (if cp + 1 = P then 0 else cp + 1) rest
  | cs, cp, .step p k _ :: rest =>
    p == cp && cs + k != IL && releasesAtBoundaries IL P (cs + k) cp rest
  | _, _, .yield _ :: _ => false
  | cs, cp, _ :: rest => releasesAtBoundaries IL P cs cp rest
  | _, _, [] => true

/-- The state `demoSim` with collaborators on which two ticks have happened, so
that the HTIF of `demoEnv` reports done. -/
def doneSim : sim_t Nat :=
  { demoSim with world := { demoWorld with ext := 2 } }

/-- The host of `demoEnv` with processors that run exactly as long as the HTIF
does not report done. -/
def haltEnv : Env Nat :=
  { demoEnv with procRunning := fun _ w => decide (w.ext < 2) }

/-- The configured memory size in megabytes: `mem_mb`, or for `mem_mb = 0` the
default of line 24 expressed in megabytes (4096 when `size_t` has 64 bits, 1024
otherwise). -/
def configuredMb {X : Type} (e : Env X) (mem_mb : Nat) : Nat :=
  if mem_mb = 0 then (if e.sizeBits = 64 then 4096 else 1024) else mem_mb

/-- The host of `demoEnv` with a mapper that accepts every request of non-zero
length. -/
def roomyEnv : Env Nat :=
  { demoEnv with mmapOk := fun _ len => decide (0 < len) }

/-- Two processors in the scheduling state left by the constructor. -/
def freshSim : sim_t Nat :=
  { demoSim with current_step := 0, current_proc := 0 }

/-- The batch-sizing rule, checked along the event list of `step(n)` while
following the loop variable (`i`, the steps dispatched so far), `current_step`
(`cs`) and `current_proc` (`cp`): every batch goes to `cp`, has size
`min (n - i) (IL - cs)`, keeps `cs + size <= IL` and `i + size <= n`; `cp`
changes only at a `yield`, which comes only when `cs` has reached `IL` and is on
`cp`, and after which `cs` is 0 and `cp` the next index. -/
def batchesSized (IL P n : Nat) : Nat → Nat → Nat → List Event → Bool
  | i, cs, cp, .step p k _ :: rest =>
    p == cp && k == min (n - i) (IL - cs) && decide (cs + k ≤ IL) && decide (i + k ≤ n) &&
      batchesSized IL P n (i + k) (cs + k) cp rest
  | i, cs, cp, .yield q :: rest =>
    q == cp && cs == IL && batchesSized IL P n i 0 (if cp + 1 = P then 0 else cp + 1) rest
  | i, cs, cp, _ :: rest => batchesSized IL P n i cs cp rest
  | _, _, _, [] => true

/-- The sizes of the retry policy as the specification words them: the request
rounded down to the quantum, then each size reduced by 10/11 and rounded down
again, without wrap-around. -/
def shrinkSeq (q m : Nat) : Nat → Nat
  | 0 => m / q * q
  | k + 1 => 10 * shrinkSeq q m k / 11 / q * q

/-- The mapping calls of an allocation that fails on the sizes number
`0, ..., K - 1` of `shrinkSeq` and succeeds on size number `K`. -/
def attempts (q m K : Nat) : List Event :=
  (List.range K).map (fun j => Event.mmap (shrinkSeq q m j) false)
    ++ [Event.mmap (shrinkSeq q m K) true]

/-- The state `freshSim` with collaborators on which three ticks have happened:
after one more tick processor 0 of `demoEnv` has stopped running and processor 1
still runs. -/
def lateSim : sim_t Nat :=
  { freshSim with world := { demoWorld with ext := 3 } }

/-- Replays the collaborator calls of an event list from the state `w` and
checks that at the moment of each dispatch some processor of the vector reports
running. -/
def dispatchedWhileLive {X : Type} (e : Env X) (P : Nat) : World X → List Event → Bool
  | w, .tick :: rest => dispatchedWhileLive e P (e.tick w) rest
  | w, .step p k b :: rest =>
    (List.range P).any (fun i => e.procRunning i w) &&
      dispatchedWhileLive e P (e.procStep p k b w) rest
  | w, .yield p :: rest => dispatchedWhileLive e P (e.yield_load_reservation p w) rest
  | w, _ :: rest => dispatchedWhileLive e P w rest
  | _, [] => true

/-- The shape of the event list of `run()` in batch mode, followed from
`current_proc = cp`: a sequence of bursts, each being either one tick and a
failed liveness check, or one tick, a successful liveness check, one batch of
exactly `IL` steps for `cp` with `noisy = false` and one `yield` on `cp`, after
which `cp` is the next index (0 after `P - 1`). -/
def wholeQuantumBursts (IL P : Nat) : Nat → List Event → Bool
  | cp, .tick :: .liveness false :: rest => wholeQuantumBursts IL P cp rest
  | cp, .tick :: .liveness true :: .step p k b :: .yield q :: rest =>
    p == cp && k == IL && b == false && q == cp &&
      wholeQuantumBursts IL P (if cp + 1 = P then 0 else cp + 1) rest
  | _, [] => true
  | _, _ => false

/-- The host of `demoEnv` with a mapper that refuses every request. -/
def fullEnv : Env Nat :=
  { demoEnv with mmapOk := fun _ _ => false }

/-! ## Basic facts -/

theorem emit_eq_ok {α : Type} (pre : List Event) (r : Outcome α) (a : α) (evs : List Event) :
    emit pre r = .ok (a, evs) ↔ ∃ rest, r = .ok (a, rest) ∧ evs = pre ++ rest := by
  cases r with
  | error f => simp [emit]
  | ok v =>
    obtain ⟨b, rest⟩ := v
    simp only [emit, Except.ok.injEq, Prod.mk.injEq]
    constructor
    · rintro ⟨rfl, rfl⟩
      exact ⟨rest, ⟨rfl, rfl⟩, rfl⟩
    · rintro ⟨r2, ⟨rfl, rfl⟩, rfl⟩
      exact ⟨rfl, rfl⟩

theorem Env.wsub_eq {X : Type} (e : Env X) {a b : Nat} (hb : b ≤ a) (ha : e.fits a) :
    e.wsub a b = a - b := by
  unfold Env.wsub
  unfold Env.fits at ha
  have h : a + e.sizeMod - b = (a - b) + e.sizeMod := by omega
  rw [h, Nat.add_mod_right, Nat.mod_eq_of_lt (by omega)]

theorem Env.wadd_eq {X : Type} (e : Env X) {a b : Nat} (h : e.fits (a + b)) :
    e.wadd a b = a + b :=
  Nat.mod_eq_of_lt h

theorem stepLoop_exit {X : Type} (e : Env X) (n : Nat) (noisy : Bool) (fuel i : Nat)
    (s : sim_t X) (h : n ≤ i) :
    sim_t.stepLoop e n noisy (fuel + 1) i s = .ok (s, []) := by
  simp [sim_t.stepLoop, Nat.not_lt.mpr h]

theorem stepLoop_dead {X : Type} (e : Env X) (n : Nat) (noisy : Bool) (fuel i : Nat)
    (s : sim_t X) (h : i < n) (hd : sim_t.running e (s.ticked e) = false) :
    sim_t.stepLoop e n noisy (fuel + 1) i s = .ok (s.ticked e, [.tick, .liveness false]) := by
  unfold sim_t.ticked at hd
  simp [sim_t.stepLoop, h, hd, sim_t.ticked]

theorem stepLoop_live {X : Type} (e : Env X) (n : Nat) (noisy : Bool) (fuel i : Nat)
    (s : sim_t X) (hI : e.fits e.INTERLEAVE) (hP : e.fits s.nprocs) (hn : e.fits n)
    (hinv : s.inv e) (h : i < n) (hr : sim_t.running e (s.ticked e) = true) :
    sim_t.stepLoop e n noisy (fuel + 1) i s =
      if s.current_step + s.batch e n i = e.INTERLEAVE then
        emit [.tick, .liveness true, .step s.current_proc (s.batch e n i) noisy,
              .yield s.current_proc]
          (sim_t.stepLoop e n noisy fuel (i + s.batch e n i) (s.afterQuantum e (s.batch e n i) noisy))
      else
        emit [.tick, .liveness true, .step s.current_proc (s.batch e n i) noisy]
          (sim_t.stepLoop e n noisy fuel (i + s.batch e n i) (s.afterBatch e (s.batch e n i) noisy)) := by
  obtain ⟨hcs, hcp⟩ := hinv
  unfold sim_t.ticked at hr
  have h1 : e.wsub n i = n - i := e.wsub_eq (Nat.le_of_lt h) hn
  have h2 : e.wsub e.INTERLEAVE s.current_step = e.INTERLEAVE - s.current_step :=
    e.wsub_eq (Nat.le_of_lt hcs) hI
  have hk : s.batch e n i ≤ e.INTERLEAVE - s.current_step := Nat.min_le_right _ _
  have hk2 : s.batch e n i ≤ n - i := Nat.min_le_left _ _
  have h3 : e.wadd s.current_step (s.batch e n i) = s.current_step + s.batch e n i := by
    apply e.wadd_eq
    unfold Env.fits at *
    omega
  have h4 : e.wadd i (s.batch e n i) = i + s.batch e n i := by
    apply e.wadd_eq
    unfold Env.fits at *
    omega
  have h5 : e.wadd s.current_proc 1 = s.current_proc + 1 := by
    apply e.wadd_eq
    unfold Env.fits at *
    omega
  simp only [sim_t.stepLoop, h, if_true, hr, h1, h2, hcp]
  simp only [Bool.true_eq_false, if_false]
  change (if e.wadd s.current_step (s.batch e n i) = e.INTERLEAVE then _ else _) = _
  rw [h3]
  by_cases hq : s.current_step + s.batch e n i = e.INTERLEAVE
  · simp only [hq, if_true]
    rw [h5]
    change emit _ (sim_t.stepLoop e n noisy fuel (e.wadd i (s.batch e n i)) _) = _
    rw [h4]
    rfl
  · simp only [hq, if_false]
    change emit _ (sim_t.stepLoop e n noisy fuel (e.wadd i (s.batch e n i))
      { s with current_step := e.wadd s.current_step (s.batch e n i)
               world := e.procStep s.current_proc (s.batch e n i) noisy (e.tick s.world) }) = _
    rw [h4, h3]
    rfl

theorem batch_pos {X : Type} (e : Env X) (n i : Nat) (s : sim_t X) (h : i < n)
    (hinv : s.inv e) : 1 ≤ s.batch e n i := by
  obtain ⟨hcs, _⟩ := hinv
  unfold sim_t.batch
  exact Nat.le_min.mpr ⟨by omega, by omega⟩

theorem batch_le_left {X : Type} (e : Env X) (n i : Nat) (s : sim_t X) :
    s.batch e n i ≤ n - i :=
  Nat.min_le_left _ _

theorem batch_le_right {X : Type} (e : Env X) (n i : Nat) (s : sim_t X) :
    s.batch e n i ≤ e.INTERLEAVE - s.current_step :=
  Nat.min_le_right _ _

theorem afterBatch_inv {X : Type} (e : Env X) (k : Nat) (noisy : Bool) (s : sim_t X)
    (hinv : s.inv e) (hk : s.current_step + k < e.INTERLEAVE) :
    (s.afterBatch e k noisy).inv e :=
  ⟨hk, hinv.2⟩

theorem afterQuantum_inv {X : Type} (e : Env X) (k : Nat) (noisy : Bool) (s : sim_t X)
    (hinv : s.inv e) : (s.afterQuantum e k noisy).inv e := by
  obtain ⟨hcs, hcp⟩ := hinv
  refine ⟨by show 0 < e.INTERLEAVE; omega, ?_⟩
  show (if s.current_proc + 1 = s.nprocs then 0 else s.current_proc + 1) < s.nprocs
  split_ifs with h <;> omega

/-- Induction along the iterations of the loop of `step`, for a call that
returns: a property of (loop variable, entry state, final state, events) that
holds for the two ways of leaving the loop and is carried backwards over the
two kinds of iteration holds for the call. -/
theorem stepLoop_induct {X : Type} (e : Env X) (n : Nat) (noisy : Bool)
    (hI : e.fits e.INTERLEAVE) (hn : e.fits n)
    (motive : Nat → sim_t X → sim_t X → List Event → Prop)
    (exit : ∀ i s, n ≤ i → s.inv e → motive i s s [])
    (dead : ∀ i s, i < n → s.inv e → sim_t.running e (s.ticked e) = false →
      motive i s (s.ticked e) [.tick, .liveness false])
    (batch : ∀ i s s1 rest, i < n → s.inv e → sim_t.running e (s.ticked e) = true →
      s.current_step + s.batch e n i < e.INTERLEAVE →
      motive (i + s.batch e n i) (s.afterBatch e (s.batch e n i) noisy) s1 rest →
      motive i s s1
        ([.tick, .liveness true, .step s.current_proc (s.batch e n i) noisy] ++ rest))
    (quantum : ∀ i s s1 rest, i < n → s.inv e → sim_t.running e (s.ticked e) = true →
      s.current_step + s.batch e n i = e.INTERLEAVE →
      motive (i + s.batch e n i) (s.afterQuantum e (s.batch e n i) noisy) s1 rest →
      motive i s s1
        ([.tick, .liveness true, .step s.current_proc (s.batch e n i) noisy,
          .yield s.current_proc] ++ rest)) :
    ∀ (fuel i : Nat) (s s1 : sim_t X) (evs : List Event), e.fits s.nprocs → s.inv e →
      sim_t.stepLoop e n noisy fuel i s = .ok (s1, evs) → motive i s s1 evs := by
  intro fuel
  induction fuel with
  | zero =>
    intro i s s1 evs _ _ h
    simp [sim_t.stepLoop] at h
  | succ fuel ih =>
    intro i s s1 evs hP hinv h
    by_cases hi : i < n
    · cases hr : sim_t.running e (s.ticked e) with
      | false =>
        rw [stepLoop_dead e n noisy fuel i s hi hr] at h
        simp only [Except.ok.injEq, Prod.mk.injEq] at h
        obtain ⟨rfl, rfl⟩ := h
        exact dead i s hi hinv hr
      | true =>
        rw [stepLoop_live e n noisy fuel i s hI hP hn hinv hi hr] at h
        have hkr := batch_le_right e n i s
        by_cases hq : s.current_step + s.batch e n i = e.INTERLEAVE
        · rw [if_pos hq, emit_eq_ok] at h
          obtain ⟨rest, hrest, rfl⟩ := h
          exact quantum i s s1 rest hi hinv hr hq
            (ih _ _ _ _ hP (afterQuantum_inv e _ noisy s hinv) hrest)
        · rw [if_neg hq, emit_eq_ok] at h
          obtain ⟨rest, hrest, rfl⟩ := h
          have hlt : s.current_step + s.batch e n i < e.INTERLEAVE := by
            have := hinv.1
            omega
          exact batch i s s1 rest hi hinv hr hlt
            (ih _ _ _ _ hP (afterBatch_inv e _ noisy s hinv hlt) hrest)
    · rw [stepLoop_exit e n noisy fuel i s (Nat.le_of_not_lt hi)] at h
      simp only [Except.ok.injEq, Prod.mk.injEq] at h
      obtain ⟨rfl, rfl⟩ := h
      exact exit i s (Nat.le_of_not_lt hi) hinv

/-- With enough iterations allowed, the loop of `step` returns. -/
theorem stepLoop_returns {X : Type} (e : Env X) (n : Nat) (noisy : Bool)
    (hI : e.fits e.INTERLEAVE) (hn : e.fits n) :
    ∀ (fuel i : Nat) (s : sim_t X), e.fits s.nprocs → s.inv e → n - i < fuel →
      ∃ s1 evs, sim_t.stepLoop e n noisy fuel i s = .ok (s1, evs) := by
  intro fuel
  induction fuel with
  | zero =>
    intro i s _ _ h
    omega
  | succ fuel ih =>
    intro i s hP hinv hf
    by_cases hi : i < n
    · cases hr : sim_t.running e (s.ticked e) with
      | false => exact ⟨_, _, stepLoop_dead e n noisy fuel i s hi hr⟩
      | true =>
        rw [stepLoop_live e n noisy fuel i s hI hP hn hinv hi hr]
        have hkr := batch_le_right e n i s
        have hkp := batch_pos e n i s hi hinv
        by_cases hq : s.current_step + s.batch e n i = e.INTERLEAVE
        · obtain ⟨s1, rest, h1⟩ := ih (i + s.batch e n i) (s.afterQuantum e (s.batch e n i) noisy)
            hP (afterQuantum_inv e _ noisy s hinv) (by omega)
          exact ⟨s1, _, by rw [if_pos hq, h1]; rfl⟩
        · have hlt : s.current_step + s.batch e n i < e.INTERLEAVE := by
            have := hinv.1
            omega
          obtain ⟨s1, rest, h1⟩ := ih (i + s.batch e n i) (s.afterBatch e (s.batch e n i) noisy)
            hP (afterBatch_inv e _ noisy s hinv hlt) (by omega)
          exact ⟨s1, _, by rw [if_neg hq, h1]; rfl⟩
    · exact ⟨_, _, stepLoop_exit e n noisy fuel i s (Nat.le_of_not_lt hi)⟩

/-! ## What one call of the loop does -/

theorem dispatches_batch (p k : Nat) (b : Bool) (rest : List Event) :
    dispatches ([.tick, .liveness true, .step p k b] ++ rest) = (p, k) :: dispatches rest := by
  simp [dispatches]

theorem dispatches_quantum (p k : Nat) (b : Bool) (rest : List Event) :
    dispatches ([.tick, .liveness true, .step p k b, .yield p] ++ rest)
      = (p, k) :: dispatches rest := by
  simp [dispatches]

theorem allAlive_batch (p k : Nat) (b : Bool) (rest : List Event) :
    allAlive ([.tick, .liveness true, .step p k b] ++ rest) ↔ allAlive rest := by
  simp [allAlive]

theorem allAlive_quantum (p k : Nat) (b : Bool) (rest : List Event) :
    allAlive ([.tick, .liveness true, .step p k b, .yield p] ++ rest) ↔ allAlive rest := by
  simp [allAlive]

theorem batchTotal_cons (p k : Nat) (ds : List (Nat × Nat)) :
    batchTotal ((p, k) :: ds) = k + batchTotal ds := by
  simp [batchTotal]

/-- A returning call of the loop keeps the invariant and touches neither the
processor vector, nor `memsz`, nor `debug`. -/
theorem stepLoop_frame {X : Type} (e : Env X) (n : Nat) (noisy : Bool)
    (hI : e.fits e.INTERLEAVE) (hn : e.fits n)
    (fuel i : Nat) (s s1 : sim_t X) (evs : List Event) (hP : e.fits s.nprocs)
    (hinv : s.inv e) (h : sim_t.stepLoop e n noisy fuel i s = .ok (s1, evs)) :
    s1.inv e ∧ s1.nprocs = s.nprocs ∧ s1.memsz = s.memsz ∧ s1.debug = s.debug := by
  refine stepLoop_induct e n noisy hI hn
    (fun _ s s1 _ => s1.inv e ∧ s1.nprocs = s.nprocs ∧ s1.memsz = s.memsz ∧ s1.debug = s.debug)
    ?_ ?_ ?_ ?_ fuel i s s1 evs hP hinv h
  · intro i s _ hinv
    exact ⟨hinv, rfl, rfl, rfl⟩
  · intro i s _ hinv _
    exact ⟨hinv, rfl, rfl, rfl⟩
  · intro i s s1 rest _ _ _ _ ih
    exact ih
  · intro i s s1 rest _ _ _ _ ih
    exact ih

/-- The steps dispatched by a returning call of the loop add up to `n - i` when
every liveness check succeeded and to less otherwise. -/
theorem stepLoop_total {X : Type} (e : Env X) (n : Nat) (noisy : Bool)
    (hI : e.fits e.INTERLEAVE) (hn : e.fits n)
    (fuel i : Nat) (s s1 : sim_t X) (evs : List Event) (hP : e.fits s.nprocs)
    (hinv : s.inv e) (h : sim_t.stepLoop e n noisy fuel i s = .ok (s1, evs)) :
    (allAlive evs → batchTotal (dispatches evs) = n - i) ∧
    (¬ allAlive evs → batchTotal (dispatches evs) < n - i) := by
  refine stepLoop_induct e n noisy hI hn
    (fun i _ _ evs => (allAlive evs → batchTotal (dispatches evs) = n - i) ∧
      (¬ allAlive evs → batchTotal (dispatches evs) < n - i))
    ?_ ?_ ?_ ?_ fuel i s s1 evs hP hinv h
  · intro i s hi _
    refine ⟨fun _ => ?_, fun hna => ?_⟩
    · simp only [dispatches, batchTotal, List.map_nil, List.sum_nil]
      omega
    · exact absurd (by simp [allAlive]) hna
  · intro i s hi _ _
    refine ⟨fun ha => ?_, fun _ => ?_⟩
    · exact absurd ha (by simp [allAlive])
    · simp only [dispatches, batchTotal, List.map_nil, List.sum_nil]
      omega
  · intro i s s1 rest hi hinv _ _ ih
    have hkl := batch_le_left e n i s
    rw [dispatches_batch, allAlive_batch, batchTotal_cons]
    refine ⟨fun ha => ?_, fun hna => ?_⟩
    · have := ih.1 ha
      omega
    · have := ih.2 hna
      omega
  · intro i s s1 rest hi hinv _ _ ih
    have hkl := batch_le_left e n i s
    rw [dispatches_quantum, allAlive_quantum, batchTotal_cons]
    refine ⟨fun ha => ?_, fun hna => ?_⟩
    · have := ih.1 ha
      omega
    · have := ih.2 hna
      omega

/-! ## Closed form of the schedule -/

theorem next_eq_mod {cp P : Nat} (h : cp < P) :
    (if cp + 1 = P then 0 else cp + 1) = (cp + 1) % P := by
  split_ifs with h1
  · rw [h1, Nat.mod_self]
  · rw [Nat.mod_eq_of_lt (by omega)]

theorem schedule_zero (IL P cs cp : Nat) (h : cs < IL) : schedule IL P cs cp 0 = [] := by
  simp [schedule, Nat.div_eq_of_lt h]

theorem schedule_batch (IL P cs cp r : Nat) (hr : 0 < r) (h : cs + r < IL) :
    schedule IL P cs cp r = [(cp, r)] := by
  have hr0 : r ≠ 0 := by omega
  simp [schedule, Nat.div_eq_of_lt h, hr0]

theorem schedule_quantum (IL P cs cp r : Nat) (hcs : cs < IL) :
    schedule IL P cs cp (r + (IL - cs)) = (cp, IL - cs) :: schedule IL P 0 ((cp + 1) % P) r := by
  have hIL : 0 < IL := by omega
  have e1 : cs + (r + (IL - cs)) = r + IL := by omega
  have e2 : (r + IL) / IL = r / IL + 1 := Nat.add_div_right r hIL
  have e3 : (r + IL) % IL = r % IL := Nat.add_mod_right r IL
  unfold schedule
  rw [e1, e2, e3, Nat.zero_add]
  simp only [Nat.add_one_ne_zero, if_false, Nat.add_sub_cancel, Nat.sub_zero]
  by_cases hq : r / IL = 0
  · have hlt : r < IL := by
      rcases Nat.div_eq_zero_iff hIL |>.mp hq with h
      exact h
    simp only [hq, List.range_zero, List.map_nil, if_true, Nat.mod_eq_of_lt hlt, Nat.zero_add]
    by_cases hr : r = 0
    · simp [hr]
    · simp [hr]
  · obtain ⟨m, hm⟩ := Nat.exists_eq_succ_of_ne_zero hq
    simp only [hq, if_false, hm, Nat.succ_eq_add_one, Nat.add_sub_cancel]
    rw [List.range_succ_eq_map, List.map_cons, List.map_map]
    have f1 : (fun j => ((cp + 1 + j) % P, IL)) ∘ Nat.succ
        = fun j => (((cp + 1) % P + 1 + j) % P, IL) := by
      funext j
      simp only [Function.comp, Nat.succ_eq_add_one, Prod.mk.injEq, and_true]
      rw [Nat.add_assoc ((cp + 1) % P), Nat.mod_add_mod]
      congr 1
      omega
    have f2 : (cp + (m + 1 + 1)) % P = ((cp + 1) % P + (m + 1)) % P := by
      rw [Nat.mod_add_mod]
      congr 1
      omega
    rw [f1, f2]
    simp

theorem yields_batch (p k : Nat) (b : Bool) (rest : List Event) :
    yields ([.tick, .liveness true, .step p k b] ++ rest) = yields rest := by
  simp [yields]

theorem yields_quantum (p k : Nat) (b : Bool) (rest : List Event) :
    yields ([.tick, .liveness true, .step p k b, .yield p] ++ rest) = p :: yields rest := by
  simp [yields]

/-- When no liveness check fails, a returning call of the loop hands out the
batches of `schedule`, releases the reservation of one processor per completed
quantum in cyclic order, and leaves the scheduling state in closed form. -/
theorem stepLoop_closed {X : Type} (e : Env X) (n : Nat) (noisy : Bool)
    (hI : e.fits e.INTERLEAVE) (hn : e.fits n)
    (fuel i : Nat) (s s1 : sim_t X) (evs : List Event) (hP : e.fits s.nprocs)
    (hinv : s.inv e) (h : sim_t.stepLoop e n noisy fuel i s = .ok (s1, evs))
    (ha : allAlive evs) :
    dispatches evs = schedule e.INTERLEAVE s.nprocs s.current_step s.current_proc (n - i) ∧
    yields evs = (List.range ((s.current_step + (n - i)) / e.INTERLEAVE)).map
      (fun j => (s.current_proc + j) % s.nprocs) ∧
    s1.current_step = (s.current_step + (n - i)) % e.INTERLEAVE ∧
    s1.current_proc
      = (s.current_proc + (s.current_step + (n - i)) / e.INTERLEAVE) % s.nprocs := by
  refine stepLoop_induct e n noisy hI hn
    (fun i s s1 evs => allAlive evs →
      dispatches evs = schedule e.INTERLEAVE s.nprocs s.current_step s.current_proc (n - i) ∧
      yields evs = (List.range ((s.current_step + (n - i)) / e.INTERLEAVE)).map
        (fun j => (s.current_proc + j) % s.nprocs) ∧
      s1.current_step = (s.current_step + (n - i)) % e.INTERLEAVE ∧
      s1.current_proc
        = (s.current_proc + (s.current_step + (n - i)) / e.INTERLEAVE) % s.nprocs)
    ?_ ?_ ?_ ?_ fuel i s s1 evs hP hinv h ha
  · intro i s hi hinv _
    obtain ⟨hcs, hcp⟩ := hinv
    have hr : n - i = 0 := by omega
    rw [hr, schedule_zero _ _ _ _ hcs, Nat.add_zero, Nat.div_eq_of_lt hcs,
      Nat.mod_eq_of_lt hcs, Nat.add_zero, Nat.mod_eq_of_lt hcp]
    simp [dispatches, yields]
  · intro i s _ _ _ hal
    exact absurd hal (by simp [allAlive])
  · intro i s s1 rest hi hinv _ hlt ih hal
    obtain ⟨hcs, hcp⟩ := hinv
    rw [allAlive_batch] at hal
    obtain ⟨h1, h2, h3, h4⟩ := ih hal
    have hk : s.batch e n i = n - i := by
      have : s.batch e n i = min (n - i) (e.INTERLEAVE - s.current_step) := rfl
      omega
    have hr : n - (i + s.batch e n i) = 0 := by omega
    have hs : (s.afterBatch e (s.batch e n i) noisy).current_step
        = s.current_step + (n - i) := by
      show s.current_step + s.batch e n i = _
      rw [hk]
    have hp : (s.afterBatch e (s.batch e n i) noisy).current_proc = s.current_proc := rfl
    have hnp : (s.afterBatch e (s.batch e n i) noisy).nprocs = s.nprocs := rfl
    simp only [hr, hs, hp, hnp, Nat.add_zero] at h1 h2 h3 h4
    rw [hk] at hlt
    rw [schedule_zero _ _ _ _ hlt] at h1
    rw [dispatches_batch, yields_batch, h1, hk, schedule_batch _ _ _ _ _ (by omega) hlt]
    exact ⟨rfl, h2, h3, h4⟩
  · intro i s s1 rest hi hinv _ hq ih hal
    obtain ⟨hcs, hcp⟩ := hinv
    rw [allAlive_quantum] at hal
    obtain ⟨h1, h2, h3, h4⟩ := ih hal
    have hIL : 0 < e.INTERLEAVE := by omega
    have hkl := batch_le_left e n i s
    have hk : s.batch e n i = e.INTERLEAVE - s.current_step := by omega
    have hs : (s.afterQuantum e (s.batch e n i) noisy).current_step = 0 := rfl
    have hp : (s.afterQuantum e (s.batch e n i) noisy).current_proc
        = (s.current_proc + 1) % s.nprocs := next_eq_mod hcp
    have hnp : (s.afterQuantum e (s.batch e n i) noisy).nprocs = s.nprocs := rfl
    simp only [hs, hp, hnp, Nat.zero_add] at h1 h2 h3 h4
    have hr : n - i = (n - (i + s.batch e n i)) + (e.INTERLEAVE - s.current_step) := by omega
    have e1 : s.current_step + (n - i) = (n - (i + s.batch e n i)) + e.INTERLEAVE := by omega
    have e2 := Nat.add_div_right (n - (i + s.batch e n i)) hIL
    have e3 := Nat.add_mod_right (n - (i + s.batch e n i)) e.INTERLEAVE
    rw [dispatches_quantum, yields_quantum, h1, h2, h3, h4, e1, e2, e3]
    refine ⟨?_, ?_, rfl, ?_⟩
    · rw [hk, hr, schedule_quantum _ _ _ _ _ hcs]
      congr 2
      omega
    · rw [List.range_succ_eq_map, List.map_cons, List.map_map]
      simp only [Nat.add_zero, Nat.mod_eq_of_lt hcp]
      congr 1
      apply List.map_congr_left
      intro j _
      simp only [Function.comp, Nat.succ_eq_add_one]
      rw [Nat.mod_add_mod]
      congr 1
      omega
    · rw [Nat.mod_add_mod]
      congr 1
      omega

/-! ## Counting the steps of each processor -/

theorem batchTotalOf_cons (p c k : Nat) (ds : List (Nat × Nat)) :
    batchTotalOf p ((c, k) :: ds) = (if c = p then k else 0) + batchTotalOf p ds := by
  by_cases h : c = p
  · simp [batchTotalOf, batchTotal, List.filter_cons, h]
  · simp [batchTotalOf, batchTotal, List.filter_cons, h]

theorem batchTotalOf_nil (p : Nat) : batchTotalOf p [] = 0 := rfl

theorem batchTotalOf_append (p : Nat) (ds1 ds2 : List (Nat × Nat)) :
    batchTotalOf p (ds1 ++ ds2) = batchTotalOf p ds1 + batchTotalOf p ds2 := by
  simp [batchTotalOf, batchTotal]

theorem batchTotalOf_map (p IL : Nat) (l : List Nat) :
    batchTotalOf p (l.map (fun c => (c, IL))) = IL * l.count p := by
  induction l with
  | nil => simp [batchTotalOf_nil]
  | cons c l ih =>
    rw [List.map_cons, batchTotalOf_cons, ih, List.count_cons]
    by_cases h : c = p
    · simp only [h, if_true, beq_self_eq_true]
      ring
    · have hb : (c == p) = false := by simpa using h
      simp [h, hb]

theorem cyclic_eq_rotate (P cp : Nat) :
    (List.range P).map (fun j => (cp + j) % P) = (List.range P).rotate cp := by
  apply List.ext_getElem
  · simp
  · intro k h1 h2
    rw [List.getElem_rotate]
    simp [Nat.add_comm]

theorem cyclic_count (P cp p : Nat) (hp : p < P) :
    ((List.range P).map (fun j => (cp + j) % P)).count p = 1 := by
  rw [cyclic_eq_rotate, (List.rotate_perm _ _).count_eq]
  exact List.count_eq_one_of_mem (List.nodup_range P) (List.mem_range.mpr hp)

theorem cyclic_tail_count (P cp p : Nat) (hcp : cp < P) (hp : p < P) :
    (if cp = p then 1 else 0)
      + ((List.range (P - 1)).map (fun j => (cp + 1 + j) % P)).count p = 1 := by
  have h := cyclic_count P cp p hp
  obtain ⟨m, rfl⟩ : ∃ m, P = m + 1 := ⟨P - 1, by omega⟩
  rw [List.range_succ_eq_map, List.map_cons, List.map_map, List.count_cons] at h
  simp only [Nat.add_zero, Nat.mod_eq_of_lt hcp] at h
  have hf : (fun j => (cp + j) % (m + 1)) ∘ Nat.succ = fun j => (cp + 1 + j) % (m + 1) := by
    funext j
    simp only [Function.comp, Nat.succ_eq_add_one]
    congr 1
    omega
  rw [hf] at h
  rw [Nat.add_sub_cancel]
  by_cases hc : cp = p
  · simpa [hc, Nat.add_comm] using h
  · have hb : (cp == p) = false := by simpa using hc
    simpa [hc, hb] using h

theorem schedule_full (IL P cs cp : Nat) (hcs : cs < IL) (hcp : cp < P) :
    schedule IL P cs cp (P * IL)
      = ((cp, IL - cs) :: (List.range (P - 1)).map (fun j => ((cp + 1 + j) % P, IL)))
        ++ (if cs = 0 then [] else [(cp, cs)]) := by
  have hIL : 0 < IL := by omega
  have e1 : (cs + P * IL) / IL = P := by
    rw [Nat.add_mul_div_right _ _ hIL, Nat.div_eq_of_lt hcs, Nat.zero_add]
  have e2 : (cs + P * IL) % IL = cs := by
    rw [Nat.add_mul_mod_self_right, Nat.mod_eq_of_lt hcs]
  have e3 : (cp + P) % P = cp := by
    rw [Nat.add_mod_right, Nat.mod_eq_of_lt hcp]
  have hP0 : P ≠ 0 := by omega
  unfold schedule
  rw [e1, e2, e3]
  simp [hP0]

theorem schedule_full_share (IL P cs cp p : Nat) (hcs : cs < IL) (hcp : cp < P) (hp : p < P) :
    batchTotalOf p (schedule IL P cs cp (P * IL)) = IL := by
  rw [schedule_full IL P cs cp hcs hcp, batchTotalOf_append, batchTotalOf_cons]
  have hm : (List.range (P - 1)).map (fun j => ((cp + 1 + j) % P, IL))
      = ((List.range (P - 1)).map (fun j => (cp + 1 + j) % P)).map (fun c => (c, IL)) := by
    rw [List.map_map]
    rfl
  rw [hm, batchTotalOf_map]
  have hc := cyclic_tail_count P cp p hcp hp
  by_cases h1 : cp = p
  · have h0 : ((List.range (P - 1)).map (fun j => (cp + 1 + j) % P)).count p = 0 := by
      rw [if_pos h1] at hc
      omega
    rw [h0]
    by_cases h2 : cs = 0
    · simp [h1, h2, batchTotalOf_nil]
    · simp only [h1, h2, if_true, if_false, batchTotalOf_cons, batchTotalOf_nil]
      omega
  · have h0 : ((List.range (P - 1)).map (fun j => (cp + 1 + j) % P)).count p = 1 := by
      rw [if_neg h1] at hc
      omega
    rw [h0]
    by_cases h2 : cs = 0
    · simp [h1, h2, batchTotalOf_nil]
    · simp [h1, h2, batchTotalOf_cons, batchTotalOf_nil]

/-- If some processor reports running in every state of the collaborators, no
liveness check of a call of the loop fails. -/
theorem stepLoop_allAlive {X : Type} (e : Env X) (n : Nat) (noisy : Bool)
    (hI : e.fits e.INTERLEAVE) (hn : e.fits n)
    (fuel i : Nat) (s s1 : sim_t X) (evs : List Event) (hP : e.fits s.nprocs)
    (hinv : s.inv e) (h : sim_t.stepLoop e n noisy fuel i s = .ok (s1, evs))
    (hrun : ∀ w, ∃ p, p < s.nprocs ∧ e.procRunning p w = true) :
    allAlive evs := by
  refine stepLoop_induct e n noisy hI hn
    (fun _ s _ evs => (∀ w, ∃ p, p < s.nprocs ∧ e.procRunning p w = true) → allAlive evs)
    ?_ ?_ ?_ ?_ fuel i s s1 evs hP hinv h hrun
  · intro i s _ _ _
    simp [allAlive]
  · intro i s _ _ hd hr
    obtain ⟨p, hp, hpr⟩ := hr (e.tick s.world)
    have : sim_t.running e (s.ticked e) = true := by
      unfold sim_t.running
      rw [List.any_eq_true]
      exact ⟨p, List.mem_range.mpr hp, hpr⟩
    rw [hd] at this
    exact absurd this (by simp)
  · intro i s s1 rest _ _ _ _ ih hr
    rw [allAlive_batch]
    exact ih hr
  · intro i s s1 rest _ _ _ _ ih hr
    rw [allAlive_quantum]
    exact ih hr

/-! ## The claims about the interleaved scheduler -/

/-- C1 (round-robin fairness).  From a state with `current_step < INTERLEAVE`
and `current_proc < P`, where `P = procs.size()`, the call
`step(P * INTERLEAVE)` returns, and if no liveness check of the call fails
(in particular if some processor is running in every collaborator state) the
batches it dispatches are: the rest of the quantum of `current_proc`, then one
whole quantum for each of `current_proc + 1, current_proc + 2, ...` taken
modulo `P`, then the part of the quantum of `current_proc` that was already
used on entry; every processor receives exactly `INTERLEAVE` steps in total. -/
theorem C1_round_robin_fairness {X : Type} (e : Env X) (fuel : Nat) (noisy : Bool)
    (s : sim_t X) (hI : e.fits e.INTERLEAVE) (hP : e.fits s.nprocs)
    (hn : e.fits (s.nprocs * e.INTERLEAVE)) (hinv : s.inv e)
    (hfuel : s.nprocs * e.INTERLEAVE < fuel) :
    ∃ s1 evs, sim_t.step e fuel (s.nprocs * e.INTERLEAVE) noisy s = .ok (s1, evs) ∧
      ((∀ w, ∃ p, p < s.nprocs ∧ e.procRunning p w = true) → allAlive evs) ∧
      (allAlive evs →
        dispatches evs
          = ((s.current_proc, e.INTERLEAVE - s.current_step) ::
              (List.range (s.nprocs - 1)).map
                (fun j => ((s.current_proc + 1 + j) % s.nprocs, e.INTERLEAVE)))
            ++ (if s.current_step = 0 then [] else [(s.current_proc, s.current_step)]) ∧
        ∀ p, p < s.nprocs → batchTotalOf p (dispatches evs) = e.INTERLEAVE) := by
  obtain ⟨s1, evs, h⟩ := stepLoop_returns e (s.nprocs * e.INTERLEAVE) noisy hI hn fuel 0 s
    hP hinv (by omega)
  refine ⟨s1, evs, h, ?_, ?_⟩
  · exact stepLoop_allAlive e _ noisy hI hn fuel 0 s s1 evs hP hinv h
  · intro ha
    obtain ⟨hd, _, _, _⟩ := stepLoop_closed e _ noisy hI hn fuel 0 s s1 evs hP hinv h ha
    rw [Nat.sub_zero] at hd
    refine ⟨?_, ?_⟩
    · rw [hd, schedule_full _ _ _ _ hinv.1 hinv.2]
    · intro p hp
      rw [hd]
      exact schedule_full_share _ _ _ _ p hinv.1 hinv.2 hp

/-- C1 on `liveEnv`: two processors, entered one step into the quantum of
processor 1. -/
theorem C1_round_robin_fairness_witness :
    (liveEnv.fits liveEnv.INTERLEAVE ∧ liveEnv.fits demoSim.nprocs ∧
      liveEnv.fits (demoSim.nprocs * liveEnv.INTERLEAVE) ∧ demoSim.inv liveEnv ∧
      demoSim.nprocs * liveEnv.INTERLEAVE < 7) ∧
    ∃ s1 evs, sim_t.step liveEnv 7 (demoSim.nprocs * liveEnv.INTERLEAVE) true demoSim
        = .ok (s1, evs) ∧
      ((∀ w, ∃ p, p < demoSim.nprocs ∧ liveEnv.procRunning p w = true) → allAlive evs) ∧
      (allAlive evs →
        dispatches evs
          = ((demoSim.current_proc, liveEnv.INTERLEAVE - demoSim.current_step) ::
              (List.range (demoSim.nprocs - 1)).map
                (fun j => ((demoSim.current_proc + 1 + j) % demoSim.nprocs,
                  liveEnv.INTERLEAVE)))
            ++ (if demoSim.current_step = 0 then []
                else [(demoSim.current_proc, demoSim.current_step)]) ∧
        ∀ p, p < demoSim.nprocs → batchTotalOf p (dispatches evs) = liveEnv.INTERLEAVE) :=
  ⟨by decide,
   C1_round_robin_fairness liveEnv 7 true demoSim (by decide) (by decide) (by decide)
     (by decide) (by decide)⟩

/-! ## The release rule -/

theorem releases_tick (IL P cs cp : Nat) (rest : List Event) :
    releasesAtBoundaries IL P cs cp (.tick :: rest) = releasesAtBoundaries IL P cs cp rest := by
  rw [releasesAtBoundaries.eq_4] <;> intros <;> simp_all

theorem releases_liveness (IL P cs cp : Nat) (b : Bool) (rest : List Event) :
    releasesAtBoundaries IL P cs cp (.liveness b :: rest)
      = releasesAtBoundaries IL P cs cp rest := by
  rw [releasesAtBoundaries.eq_4] <;> intros <;> simp_all

theorem releases_step_of_tail (IL P cs cp k : Nat) (b : Bool) (rest : List Event)
    (hk : cs + k ≠ IL) (h : releasesAtBoundaries IL P (cs + k) cp rest = true) :
    releasesAtBoundaries IL P cs cp (.step cp k b :: rest) = true := by
  have hne : ∀ (q : Nat) (tl : List Event), rest = .yield q :: tl → False := by
    intro q tl hq
    rw [hq, releasesAtBoundaries.eq_3] at h
    exact absurd h (by simp)
  rw [releasesAtBoundaries.eq_2 _ _ _ _ _ _ _ _ hne, h]
  simp [hk]

theorem stepLoop_releases {X : Type} (e : Env X) (n : Nat) (noisy : Bool)
    (hI : e.fits e.INTERLEAVE) (hn : e.fits n)
    (fuel i : Nat) (s s1 : sim_t X) (evs : List Event) (hP : e.fits s.nprocs)
    (hinv : s.inv e) (h : sim_t.stepLoop e n noisy fuel i s = .ok (s1, evs)) :
    releasesAtBoundaries e.INTERLEAVE s.nprocs s.current_step s.current_proc evs = true := by
  refine stepLoop_induct e n noisy hI hn
    (fun _ s _ evs =>
      releasesAtBoundaries e.INTERLEAVE s.nprocs s.current_step s.current_proc evs = true)
    ?_ ?_ ?_ ?_ fuel i s s1 evs hP hinv h
  · intro i s _ _
    rfl
  · intro i s _ _ _
    rw [releases_tick, releases_liveness]
    rfl
  · intro i s s1 rest _ _ _ hlt ih
    rw [List.cons_append, List.cons_append, List.cons_append, List.nil_append,
      releases_tick, releases_liveness]
    exact releases_step_of_tail _ _ _ _ _ _ _ (Nat.ne_of_lt hlt) ih
  · intro i s s1 rest _ _ _ hq ih
    rw [List.cons_append, List.cons_append, List.cons_append, List.cons_append,
      List.nil_append, releases_tick, releases_liveness, releasesAtBoundaries.eq_1]
    have ih2 : releasesAtBoundaries e.INTERLEAVE s.nprocs 0
        (if s.current_proc + 1 = s.nprocs then 0 else s.current_proc + 1) rest = true := ih
    rw [ih2]
    simp [hq]

/-- A call entered with `current_proc` outside the processor vector returns
only if it dispatches nothing. -/
theorem stepLoop_stray {X : Type} (e : Env X) (n : Nat) (noisy : Bool) (fuel i : Nat)
    (s s1 : sim_t X) (evs : List Event) (hcp : ¬ s.current_proc < s.nprocs)
    (h : sim_t.stepLoop e n noisy fuel i s = .ok (s1, evs)) :
    (n ≤ i ∧ evs = []) ∨ (i < n ∧ evs = [.tick, .liveness false]) := by
  cases fuel with
  | zero => simp [sim_t.stepLoop] at h
  | succ fuel =>
    by_cases hi : i < n
    · cases hr : sim_t.running e (s.ticked e) with
      | false =>
        rw [stepLoop_dead e n noisy fuel i s hi hr] at h
        simp only [Except.ok.injEq, Prod.mk.injEq] at h
        exact Or.inr ⟨hi, h.2.symm⟩
      | true =>
        unfold sim_t.ticked at hr
        simp [sim_t.stepLoop, hi, hr, hcp] at h
    · rw [stepLoop_exit e n noisy fuel i s (Nat.le_of_not_lt hi)] at h
      simp only [Except.ok.injEq, Prod.mk.injEq] at h
      exact Or.inl ⟨Nat.le_of_not_lt hi, h.2.symm⟩

/-- C2 (load-reservation release).  Let `step(n)` be entered with
`current_step < INTERLEAVE`.  If `current_proc` is a valid index the call
returns.  Whenever it returns, its event list obeys the release rule
`releasesAtBoundaries`: `yield_load_reservation` is called once each time
`current_step` reaches `INTERLEAVE`, on the processor that was just stepped,
directly after that dispatch and before the next one, and nowhere else.  If no
liveness check fails, the call makes `(current_step + n) / INTERLEAVE` such
calls, on `current_proc`, `current_proc + 1`, ... taken modulo the number of
processors. -/
theorem C2_load_reservation_release {X : Type} (e : Env X) (fuel n : Nat) (noisy : Bool)
    (s : sim_t X) (hI : e.fits e.INTERLEAVE) (hP : e.fits s.nprocs) (hn : e.fits n)
    (hcs : s.current_step < e.INTERLEAVE) :
    (s.current_proc < s.nprocs → n < fuel →
      ∃ s1 evs, sim_t.step e fuel n noisy s = .ok (s1, evs)) ∧
    ∀ s1 evs, sim_t.step e fuel n noisy s = .ok (s1, evs) →
      releasesAtBoundaries e.INTERLEAVE s.nprocs s.current_step s.current_proc evs = true ∧
      (allAlive evs →
        (yields evs).length = (s.current_step + n) / e.INTERLEAVE ∧
        yields evs = (List.range ((s.current_step + n) / e.INTERLEAVE)).map
          (fun j => (s.current_proc + j) % s.nprocs)) := by
  refine ⟨fun hcp hf => stepLoop_returns e n noisy hI hn fuel 0 s hP ⟨hcs, hcp⟩ (by omega), ?_⟩
  intro s1 evs h
  by_cases hcp : s.current_proc < s.nprocs
  · refine ⟨stepLoop_releases e n noisy hI hn fuel 0 s s1 evs hP ⟨hcs, hcp⟩ h, fun ha => ?_⟩
    obtain ⟨_, hy, _, _⟩ := stepLoop_closed e n noisy hI hn fuel 0 s s1 evs hP ⟨hcs, hcp⟩ h ha
    rw [Nat.sub_zero] at hy
    rw [hy]
    simp
  · rcases stepLoop_stray e n noisy fuel 0 s s1 evs hcp h with ⟨h0, rfl⟩ | ⟨_, rfl⟩
    · have hn0 : n = 0 := by omega
      refine ⟨rfl, fun _ => ?_⟩
      rw [hn0, Nat.add_zero, Nat.div_eq_of_lt hcs]
      simp [yields]
    · refine ⟨by rw [releases_tick, releases_liveness]; rfl, fun ha => ?_⟩
      exact absurd ha (by simp [allAlive])

/-- C2 on `liveEnv`: seven steps asked from `demoSim`. -/
theorem C2_load_reservation_release_witness :
    (liveEnv.fits liveEnv.INTERLEAVE ∧ liveEnv.fits demoSim.nprocs ∧ liveEnv.fits 7 ∧
      demoSim.current_step < liveEnv.INTERLEAVE) ∧
    (demoSim.current_proc < demoSim.nprocs → 7 < 8 →
      ∃ s1 evs, sim_t.step liveEnv 8 7 true demoSim = .ok (s1, evs)) ∧
    ∀ s1 evs, sim_t.step liveEnv 8 7 true demoSim = .ok (s1, evs) →
      releasesAtBoundaries liveEnv.INTERLEAVE demoSim.nprocs demoSim.current_step
        demoSim.current_proc evs = true ∧
      (allAlive evs →
        (yields evs).length = (demoSim.current_step + 7) / liveEnv.INTERLEAVE ∧
        yields evs = (List.range ((demoSim.current_step + 7) / liveEnv.INTERLEAVE)).map
          (fun j => (demoSim.current_proc + j) % demoSim.nprocs)) :=
  ⟨by decide,
   C2_load_reservation_release liveEnv 8 7 true demoSim (by decide) (by decide) (by decide)
     (by decide)⟩

/-- C3 (step budget).  From a state satisfying the invariant, `step(n)`
returns; the batch sizes it dispatched add up to at most `n`, to exactly `n`
if and only if none of its liveness checks failed, and to less than `n` only
if some liveness check found no processor running. -/
theorem C3_step_budget {X : Type} (e : Env X) (fuel n : Nat) (noisy : Bool)
    (s : sim_t X) (hI : e.fits e.INTERLEAVE) (hP : e.fits s.nprocs) (hn : e.fits n)
    (hinv : s.inv e) (hfuel : n < fuel) :
    ∃ s1 evs, sim_t.step e fuel n noisy s = .ok (s1, evs) ∧
      batchTotal (dispatches evs) ≤ n ∧
      (batchTotal (dispatches evs) = n ↔ allAlive evs) ∧
      (batchTotal (dispatches evs) < n → Event.liveness false ∈ evs) := by
  obtain ⟨s1, evs, h⟩ := stepLoop_returns e n noisy hI hn fuel 0 s hP hinv (by omega)
  obtain ⟨h1, h2⟩ := stepLoop_total e n noisy hI hn fuel 0 s s1 evs hP hinv h
  rw [Nat.sub_zero] at h1 h2
  refine ⟨s1, evs, h, ?_, ⟨fun heq => ?_, h1⟩, fun hlt => ?_⟩
  · by_cases ha : allAlive evs
    · exact Nat.le_of_eq (h1 ha)
    · exact Nat.le_of_lt (h2 ha)
  · by_contra ha
    have := h2 ha
    omega
  · by_contra hmem
    have := h1 hmem
    omega

/-- C3 on `demoEnv`: fifteen steps asked from `demoSim`, whose processors stop
running before the budget is used up. -/
theorem C3_step_budget_witness :
    (demoEnv.fits demoEnv.INTERLEAVE ∧ demoEnv.fits demoSim.nprocs ∧ demoEnv.fits 15 ∧
      demoSim.inv demoEnv ∧ 15 < 20) ∧
    ∃ s1 evs, sim_t.step demoEnv 20 15 true demoSim = .ok (s1, evs) ∧
      batchTotal (dispatches evs) ≤ 15 ∧
      (batchTotal (dispatches evs) = 15 ↔ allAlive evs) ∧
      (batchTotal (dispatches evs) < 15 → Event.liveness false ∈ evs) :=
  ⟨by decide,
   C3_step_budget demoEnv 20 15 true demoSim (by decide) (by decide) (by decide) (by decide)
     (by decide)⟩

/-! ## `run`, `stop`, `send_ipi`, `get_scr` and the constructor -/

theorem run_of_done {X : Type} (e : Env X) (fuel : Nat) (s : sim_t X)
    (hd : e.done s.world = true) : sim_t.run e (fuel + 1) s = .ok (s, []) := by
  simp [sim_t.run, hd]

theorem run_of_debug {X : Type} (e : Env X) (fuel : Nat) (s : sim_t X)
    (hd : e.done s.world = false) (hdbg : s.debug = true) :
    sim_t.run e (fuel + 1) s
      = emit [.interactive] (sim_t.run e fuel { s with world := e.interactive s.world }) := by
  simp [sim_t.run, hd, hdbg]

theorem run_of_step {X : Type} (e : Env X) (fuel : Nat) (s : sim_t X)
    (hd : e.done s.world = false) (hdbg : s.debug = false) :
    sim_t.run e (fuel + 1) s
      = match sim_t.step e fuel e.INTERLEAVE false s with
        | .ok (s1, evs) => emit evs (sim_t.run e fuel s1)
        | .error f => .error f := by
  simp [sim_t.run, hd, hdbg]

/-- Whenever `run` returns, the HTIF reports done. -/
theorem run_done {X : Type} (e : Env X) :
    ∀ (fuel : Nat) (s s1 : sim_t X) (evs : List Event),
      sim_t.run e fuel s = .ok (s1, evs) → e.done s1.world = true := by
  intro fuel
  induction fuel with
  | zero =>
    intro s s1 evs h
    simp [sim_t.run] at h
  | succ fuel ih =>
    intro s s1 evs h
    cases hd : e.done s.world with
    | true =>
      rw [run_of_done e fuel s hd] at h
      simp only [Except.ok.injEq, Prod.mk.injEq] at h
      rw [← h.1]
      exact hd
    | false =>
      cases hdbg : s.debug with
      | true =>
        rw [run_of_debug e fuel s hd hdbg, emit_eq_ok] at h
        obtain ⟨rest, hrest, _⟩ := h
        exact ih _ _ _ hrest
      | false =>
        rw [run_of_step e fuel s hd hdbg] at h
        split at h
        · rw [emit_eq_ok] at h
          obtain ⟨rest, hrest, _⟩ := h
          exact ih _ _ _ hrest
        · exact absurd h (by simp)

/-- Whenever `run` returns from a state satisfying the invariant, the final
state satisfies it, with the same processor vector. -/
theorem run_inv {X : Type} (e : Env X) (hI : e.fits e.INTERLEAVE) :
    ∀ (fuel : Nat) (s s1 : sim_t X) (evs : List Event), e.fits s.nprocs → s.inv e →
      sim_t.run e fuel s = .ok (s1, evs) → s1.inv e ∧ s1.nprocs = s.nprocs := by
  intro fuel
  induction fuel with
  | zero =>
    intro s s1 evs _ _ h
    simp [sim_t.run] at h
  | succ fuel ih =>
    intro s s1 evs hP hinv h
    cases hd : e.done s.world with
    | true =>
      rw [run_of_done e fuel s hd] at h
      simp only [Except.ok.injEq, Prod.mk.injEq] at h
      rw [← h.1]
      exact ⟨hinv, rfl⟩
    | false =>
      cases hdbg : s.debug with
      | true =>
        rw [run_of_debug e fuel s hd hdbg, emit_eq_ok] at h
        obtain ⟨rest, hrest, _⟩ := h
        exact ih { s with world := e.interactive s.world } s1 rest hP hinv hrest
      | false =>
        rw [run_of_step e fuel s hd hdbg] at h
        split at h
        · rename_i s2 evs2 hstep
          rw [emit_eq_ok] at h
          obtain ⟨rest, hrest, _⟩ := h
          obtain ⟨hinv2, hnp, _, _⟩ :=
            stepLoop_frame e e.INTERLEAVE false hI hI fuel 0 s s2 evs2 hP hinv hstep
          obtain ⟨h3, h4⟩ := ih s2 s1 rest (by rw [hnp]; exact hP) hinv2 hrest
          exact ⟨h3, by rw [h4, hnp]⟩
        · exact absurd h (by simp)

/-- The loop of `stop`: if it returns, it has made some number `k` of ticks and
nothing else, `k` being the first number of ticks after which the HTIF reports
done. -/
theorem stopLoop_spec {X : Type} (e : Env X) :
    ∀ (fuel : Nat) (s s1 : sim_t X) (evs : List Event),
      sim_t.stopLoop e fuel s = .ok (s1, evs) →
      ∃ k, k < fuel ∧ evs = List.replicate k Event.tick ∧
        s1 = { s with world := e.tick^[k] s.world } ∧
        e.done s1.world = true ∧ ∀ j, j < k → e.done (e.tick^[j] s.world) = false := by
  intro fuel
  induction fuel with
  | zero =>
    intro s s1 evs h
    simp [sim_t.stopLoop] at h
  | succ fuel ih =>
    intro s s1 evs h
    cases hd : e.done s.world with
    | true =>
      simp only [sim_t.stopLoop, hd, if_true, Except.ok.injEq, Prod.mk.injEq] at h
      obtain ⟨rfl, rfl⟩ := h
      exact ⟨0, Nat.succ_pos _, rfl, rfl, hd, fun j hj => absurd hj (Nat.not_lt_zero j)⟩
    | false =>
      simp only [sim_t.stopLoop, hd, Bool.false_eq_true, if_false] at h
      rw [emit_eq_ok] at h
      obtain ⟨rest, hrest, rfl⟩ := h
      obtain ⟨k, hk, rfl, rfl, hdone, hfirst⟩ := ih _ _ _ hrest
      refine ⟨k + 1, by omega, rfl, rfl, hdone, ?_⟩
      intro j hj
      cases j with
      | zero => exact hd
      | succ j => exact hfirst j (by omega)

theorem populate_in_bounds (c : Nat) :
    ((List.range (if c = 0 then 1 else c)).all (fun i => decide (i < c)) = true) ↔ c ≠ 0 := by
  by_cases h : c = 0
  · simp [h]
  · simp only [h, if_false, List.all_eq_true, List.mem_range, decide_eq_true_eq]
    exact ⟨fun _ => fun h0 => h h0, fun _ i hi => hi⟩

/-- The constructor in terms of the allocator: it fails as the allocator does,
stores out of bounds when asked for zero processors, and otherwise leaves the
initial scheduling state with a processor vector of the requested size. -/
theorem construct_eq {X : Type} (e : Env X) (fuel : Nat) (w0 : World X) (c mem_mb : Nat) :
    sim_t.construct e fuel w0 c mem_mb
      = match sim_t.allocate e fuel mem_mb with
        | .error f => .error f
        | .ok (memsz, evs) =>
          if c = 0 then .error .outOfBounds
          else .ok ({ nprocs := c, memsz := memsz, current_step := 0, current_proc := 0,
                      debug := false, world := w0 }, evs) := by
  unfold sim_t.construct
  cases sim_t.allocate e fuel mem_mb with
  | error f => rfl
  | ok v =>
    obtain ⟨memsz, evs⟩ := v
    by_cases h : c = 0
    · have := (populate_in_bounds c).not.mpr (by simpa using h)
      simp [h]
    · have := (populate_in_bounds c).mpr h
      rw [if_neg h] at this
      simp only [h, if_false, this, if_true]

theorem construct_ok {X : Type} (e : Env X) (fuel : Nat) (w0 : World X) (c mem_mb : Nat)
    (s : sim_t X) (evs : List Event) (h : sim_t.construct e fuel w0 c mem_mb = .ok (s, evs)) :
    c ≠ 0 ∧ sim_t.allocate e fuel mem_mb = .ok (s.memsz, evs) ∧
      s = { nprocs := c, memsz := s.memsz, current_step := 0, current_proc := 0,
            debug := false, world := w0 } := by
  rw [construct_eq] at h
  cases ha : sim_t.allocate e fuel mem_mb with
  | error f =>
    rw [ha] at h
    exact absurd h (by simp)
  | ok v =>
    obtain ⟨memsz, evs2⟩ := v
    rw [ha] at h
    by_cases hc : c = 0
    · simp [hc] at h
    · simp only [hc, if_false, Except.ok.injEq, Prod.mk.injEq] at h
      obtain ⟨rfl, rfl⟩ := h
      exact ⟨hc, rfl, rfl⟩

/-- C4 (scheduling-state invariant).  With a non-zero quantum that fits
`size_t`: every simulator returned by the constructor for a request of at
least one processor satisfies `current_step < INTERLEAVE` and
`current_proc < procs.size()`; and from every state satisfying this predicate,
`step(n, noisy)` returns for every `n` and every liveness pattern and leaves a
state that satisfies it, `run` and `stop` leave such a state whenever they
return, and `send_ipi` and `get_scr` return and leave such a state. -/
theorem C4_scheduling_invariant {X : Type} (e : Env X) (hI : e.fits e.INTERLEAVE)
    (hpos : 0 < e.INTERLEAVE) :
    (∀ fuel w0 c mem_mb s evs, 1 ≤ c →
      sim_t.construct e fuel w0 c mem_mb = .ok (s, evs) → s.inv e) ∧
    (∀ s : sim_t X, e.fits s.nprocs → s.inv e →
      (∀ fuel n noisy, e.fits n →
        (n < fuel → ∃ s1 evs, sim_t.step e fuel n noisy s = .ok (s1, evs)) ∧
        (∀ s1 evs, sim_t.step e fuel n noisy s = .ok (s1, evs) → s1.inv e)) ∧
      (∀ fuel s1 evs, sim_t.run e fuel s = .ok (s1, evs) → s1.inv e) ∧
      (∀ fuel s1 evs, sim_t.stop e fuel s = .ok (s1, evs) → s1.inv e) ∧
      (∀ who, ∃ s1 evs, sim_t.send_ipi e who s = .ok (s1, evs) ∧ s1.inv e) ∧
      (∀ which, (sim_t.get_scr s which).2.1.inv e)) := by
  refine ⟨?_, ?_⟩
  · intro fuel w0 c mem_mb s evs hc h
    obtain ⟨_, _, hs⟩ := construct_ok e fuel w0 c mem_mb s evs h
    rw [hs]
    exact ⟨hpos, hc⟩
  · intro s hP hinv
    refine ⟨?_, ?_, ?_, ?_, ?_⟩
    · intro fuel n noisy hn
      refine ⟨fun hf => stepLoop_returns e n noisy hI hn fuel 0 s hP hinv (by omega), ?_⟩
      intro s1 evs h
      exact (stepLoop_frame e n noisy hI hn fuel 0 s s1 evs hP hinv h).1
    · intro fuel s1 evs h
      exact (run_inv e hI fuel s s1 evs hP hinv h).1
    · intro fuel s1 evs h
      unfold sim_t.stop at h
      split_ifs at h with h0
      · rw [emit_eq_ok] at h
        obtain ⟨rest, hrest, _⟩ := h
        obtain ⟨k, _, _, hs1, _, _⟩ := stopLoop_spec e fuel _ s1 rest hrest
        rw [hs1]
        exact hinv
    · intro who
      unfold sim_t.send_ipi
      split_ifs with hw
      · exact ⟨_, _, rfl, hinv⟩
      · exact ⟨_, _, rfl, hinv⟩
    · intro which
      exact hinv

/-- C4 on `demoEnv`: the constructor asked for two processors, then `step`,
`run`, `stop`, `send_ipi` and `get_scr` on `demoSim`. -/
theorem C4_scheduling_invariant_witness :
    (demoEnv.fits demoEnv.INTERLEAVE ∧ 0 < demoEnv.INTERLEAVE) ∧
    (1 ≤ 2 ∧ (∃ s evs, sim_t.construct demoEnv 9 demoWorld 2 0 = .ok (s, evs) ∧ s.inv demoEnv)) ∧
    (demoEnv.fits demoSim.nprocs ∧ demoSim.inv demoEnv) ∧
    (∃ s1 evs, sim_t.step demoEnv 20 15 true demoSim = .ok (s1, evs) ∧ s1.inv demoEnv) ∧
    (∃ s1 evs, sim_t.run demoEnv 20 demoSim = .ok (s1, evs) ∧ s1.inv demoEnv) ∧
    (∃ s1 evs, sim_t.stop demoEnv 20 demoSim = .ok (s1, evs) ∧ s1.inv demoEnv) :=
  have h := C4_scheduling_invariant demoEnv (by decide) (by decide)
  have hs := h.2 demoSim (by decide) (by decide)
  ⟨by decide,
   ⟨by decide, _, _, rfl, h.1 9 demoWorld 2 0 _ _ (by decide) rfl⟩,
   by decide,
   ⟨_, _, rfl, (hs.1 20 15 true (by decide)).2 _ _ rfl⟩,
   ⟨_, _, rfl, hs.2.1 20 _ _ rfl⟩,
   ⟨_, _, rfl, hs.2.2.1 20 _ _ rfl⟩⟩

/-! ## The target memory allocator -/

/-- The retry update of line 34 yields a smaller size, also when `memsz * 10`
wraps around. -/
theorem shrink_lt {X : Type} (e : Env X) (q x : Nat) (hx : 0 < x) :
    e.wmul x 10 / 11 / q * q < x := by
  have h1 : e.wmul x 10 ≤ x * 10 := Nat.mod_le _ _
  have h2 : e.wmul x 10 / 11 / q * q ≤ e.wmul x 10 / 11 := Nat.div_mul_le_self _ _
  have h3 : e.wmul x 10 / 11 ≤ x * 10 / 11 := Nat.div_le_div_right h1
  omega

theorem shrink_zero {X : Type} (e : Env X) (q : Nat) : e.wmul 0 10 / 11 / q * q = 0 := by
  simp [Env.wmul]

/-- The retry loop, given more iterations than the current size: it ends in
the assertion or obtains a smaller, non-zero multiple of the quantum. -/
theorem shrinkLoop_spec {X : Type} (e : Env X) (q : Nat) :
    ∀ (fuel k x : Nat), x < fuel →
      sim_t.shrinkLoop e q fuel k x = .error .assertFailed ∨
      ∃ r evs, sim_t.shrinkLoop e q fuel k x = .ok (r, evs) ∧ 0 < r ∧ q ∣ r ∧ r < x := by
  intro fuel
  induction fuel with
  | zero =>
    intro k x h
    omega
  | succ fuel ih =>
    intro k x hx
    by_cases h0 : e.wmul x 10 / 11 / q * q = 0
    · left
      simp [sim_t.shrinkLoop, h0]
    · have hxpos : 0 < x := by
        rcases Nat.eq_zero_or_pos x with hx0 | hx0
        · rw [hx0, shrink_zero] at h0
          exact absurd rfl h0
        · exact hx0
      have hlt := shrink_lt e q x hxpos
      cases hm : e.mmapOk k (e.wmul x 10 / 11 / q * q) with
      | true =>
        right
        refine ⟨e.wmul x 10 / 11 / q * q, [.mmap (e.wmul x 10 / 11 / q * q) true], ?_,
          Nat.pos_of_ne_zero h0, Dvd.intro_left _ rfl, hlt⟩
        simp [sim_t.shrinkLoop, h0, hm]
      | false =>
        have hstep : sim_t.shrinkLoop e q (fuel + 1) k x
            = emit [.mmap (e.wmul x 10 / 11 / q * q) false]
                (sim_t.shrinkLoop e q fuel (k + 1) (e.wmul x 10 / 11 / q * q)) := by
          simp [sim_t.shrinkLoop, h0, hm]
        rw [hstep]
        rcases ih (k + 1) (e.wmul x 10 / 11 / q * q) (by omega) with herr | ⟨r, evs, hok, hr, hd, hlt2⟩
        · left
          rw [herr]
          rfl
        · right
          refine ⟨r, [.mmap (e.wmul x 10 / 11 / q * q) false] ++ evs, ?_, hr, hd, by omega⟩
          rw [hok]
          rfl

theorem allocateFrom_first {X : Type} (e : Env X) (fuel m : Nat) (hq : 1 ≤ sim_t.quantum e)
    (hm : e.mmapOk 0 (m / sim_t.quantum e * sim_t.quantum e) = true) :
    sim_t.allocateFrom e fuel m
      = .ok (m / sim_t.quantum e * sim_t.quantum e,
          [.mmap (m / sim_t.quantum e * sim_t.quantum e) true]) := by
  have hq0 : sim_t.quantum e ≠ 0 := by omega
  simp [sim_t.allocateFrom, hq0, hm]

theorem allocateFrom_spec {X : Type} (e : Env X) (fuel m : Nat) (hq : 1 ≤ sim_t.quantum e)
    (hzero : ∀ k, e.mmapOk k 0 = false) (hfuel : m < fuel) :
    sim_t.allocateFrom e fuel m = .error .assertFailed ∨
    ∃ memsz evs, sim_t.allocateFrom e fuel m = .ok (memsz, evs) ∧ 0 < memsz ∧
      sim_t.quantum e ∣ memsz ∧ memsz ≤ m / sim_t.quantum e * sim_t.quantum e := by
  have hq0 : sim_t.quantum e ≠ 0 := by omega
  have hle : m / sim_t.quantum e * sim_t.quantum e ≤ m := Nat.div_mul_le_self _ _
  cases hm : e.mmapOk 0 (m / sim_t.quantum e * sim_t.quantum e) with
  | true =>
    right
    refine ⟨_, _, allocateFrom_first e fuel m hq hm, ?_, Dvd.intro_left _ rfl, Nat.le_refl _⟩
    rcases Nat.eq_zero_or_pos (m / sim_t.quantum e * sim_t.quantum e) with h0 | h0
    · rw [h0, hzero 0] at hm
      exact absurd hm (by simp)
    · exact h0
  | false =>
    have hstep : sim_t.allocateFrom e fuel m
        = emit [.mmap (m / sim_t.quantum e * sim_t.quantum e) false]
            (sim_t.shrinkLoop e (sim_t.quantum e) fuel 1
              (m / sim_t.quantum e * sim_t.quantum e)) := by
      simp [sim_t.allocateFrom, hq0, hm]
    rw [hstep]
    rcases shrinkLoop_spec e (sim_t.quantum e) fuel 1
        (m / sim_t.quantum e * sim_t.quantum e) (by omega)
      with herr | ⟨r, evs, hok, hr, hd, hlt⟩
    · left
      rw [herr]
      rfl
    · right
      refine ⟨r, [.mmap (m / sim_t.quantum e * sim_t.quantum e) false] ++ evs, ?_, hr, hd,
        Nat.le_of_lt hlt⟩
      rw [hok]
      rfl

/-- C5 (obtained memory size).  Let `m` be the requested size in bytes, `q >= 1`
the quantum, and let the host reject every mapping of length zero.  Given more
loop iterations than `m`, lines 26-39 either end in the assertion or obtain a
`memsz` that is positive, a multiple of `q`, and at most `m / q * q`; if the
first mapping succeeds, `memsz` is `m / q * q`.  Every simulator that the
constructor returns for `mem_mb`, where `m` is the size requested for `mem_mb`
(the default when it is 0), has such a `memsz`. -/
theorem C5_obtained_memory_size {X : Type} (e : Env X) (fuel m : Nat)
    (hq : 1 ≤ sim_t.quantum e) (hzero : ∀ k, e.mmapOk k 0 = false) (hfuel : m < fuel) :
    (sim_t.allocateFrom e fuel m = .error .assertFailed ∨
      ∃ memsz evs, sim_t.allocateFrom e fuel m = .ok (memsz, evs) ∧ 0 < memsz ∧
        sim_t.quantum e ∣ memsz ∧ memsz ≤ m / sim_t.quantum e * sim_t.quantum e) ∧
    (e.mmapOk 0 (m / sim_t.quantum e * sim_t.quantum e) = true →
      ∃ evs, sim_t.allocateFrom e fuel m
        = .ok (m / sim_t.quantum e * sim_t.quantum e, evs)) ∧
    (∀ w0 c mem_mb s evs, m = sim_t.memsz0 e mem_mb →
      sim_t.construct e fuel w0 c mem_mb = .ok (s, evs) →
      0 < s.memsz ∧ sim_t.quantum e ∣ s.memsz ∧
        s.memsz ≤ m / sim_t.quantum e * sim_t.quantum e) := by
  have hspec := allocateFrom_spec e fuel m hq hzero hfuel
  refine ⟨hspec, fun hm => ⟨_, allocateFrom_first e fuel m hq hm⟩, ?_⟩
  intro w0 c mem_mb s evs hm h
  obtain ⟨_, ha, _⟩ := construct_ok e fuel w0 c mem_mb s evs h
  unfold sim_t.allocate at ha
  rw [← hm] at ha
  rcases hspec with herr | ⟨r, evs2, hok, hr, hd, hle⟩
  · rw [herr] at ha
    exact absurd ha (by simp)
  · rw [hok] at ha
    simp only [Except.ok.injEq, Prod.mk.injEq] at ha
    rw [← ha.1]
    exact ⟨hr, hd, hle⟩

/-- C5 on `demoEnv`, whose first mapping fails: the 1048576 bytes of
`mem_mb = 1` requested with quantum 4. -/
theorem C5_obtained_memory_size_witness :
    (1 ≤ sim_t.quantum demoEnv ∧ (∀ k, demoEnv.mmapOk k 0 = false) ∧ 1048576 < 1048577) ∧
    (sim_t.allocateFrom demoEnv 1048577 1048576 = .error .assertFailed ∨
      ∃ memsz evs, sim_t.allocateFrom demoEnv 1048577 1048576 = .ok (memsz, evs) ∧ 0 < memsz ∧
        sim_t.quantum demoEnv ∣ memsz ∧
        memsz ≤ 1048576 / sim_t.quantum demoEnv * sim_t.quantum demoEnv) ∧
    (demoEnv.mmapOk 0 (1048576 / sim_t.quantum demoEnv * sim_t.quantum demoEnv) = true →
      ∃ evs, sim_t.allocateFrom demoEnv 1048577 1048576
        = .ok (1048576 / sim_t.quantum demoEnv * sim_t.quantum demoEnv, evs)) ∧
    (∀ w0 c mem_mb s evs, 1048576 = sim_t.memsz0 demoEnv mem_mb →
      sim_t.construct demoEnv 1048577 w0 c mem_mb = .ok (s, evs) →
      0 < s.memsz ∧ sim_t.quantum demoEnv ∣ s.memsz ∧
        s.memsz ≤ 1048576 / sim_t.quantum demoEnv * sim_t.quantum demoEnv) :=
  ⟨⟨by decide, fun k => by simp [demoEnv], by decide⟩,
   C5_obtained_memory_size demoEnv 1048577 1048576 (by decide) (fun k => by simp [demoEnv])
     (by decide)⟩

/-- C6 (core-count coercion), evaluated at a request for zero processors: the
vector `procs` is built with zero elements before `_nprocs` is set to 1, so
once the memory is obtained the store `procs[0] = ...` of line 46 is out of
bounds, and the constructor never returns a simulator with one processor. -/
theorem C6_zero_request_out_of_bounds {X : Type} (e : Env X) (fuel : Nat) (w0 : World X)
    (mem_mb : Nat) :
    sim_t.construct e fuel w0 0 mem_mb
      = (match sim_t.allocate e fuel mem_mb with
        | .error f => .error f
        | .ok _ => .error .outOfBounds) ∧
    sim_t.construct demoEnv 9 demoWorld 0 1 = .error .outOfBounds := by
  refine ⟨?_, rfl⟩
  rw [construct_eq]
  cases sim_t.allocate e fuel mem_mb with
  | error f => rfl
  | ok v => rfl

/-- C7 (`get_scr` lookup).  For a state whose `procs.size()` and `memsz` are
64-bit values and every `int` index, `get_scr` returns `procs.size()` for
index 0, `memsz / 2^20` for index 1 and `2^64 - 1` for every other index,
negative ones included, leaves the state as it was and calls no collaborator. -/
theorem C7_get_scr_lookup {X : Type} (s : sim_t X) (which : Int)
    (hP : s.nprocs < 2 ^ 64) (hm : s.memsz < 2 ^ 64) :
    (sim_t.get_scr s which).1
      = (if which = 0 then s.nprocs else if which = 1 then s.memsz / 2 ^ 20 else 2 ^ 64 - 1) ∧
    (sim_t.get_scr s which).2 = (s, []) := by
  refine ⟨?_, rfl⟩
  have h1 : s.nprocs % 2 ^ 64 = s.nprocs := Nat.mod_eq_of_lt hP
  have h2 : s.memsz / 2 ^ 20 % 2 ^ 64 = s.memsz / 2 ^ 20 :=
    Nat.mod_eq_of_lt (Nat.lt_of_le_of_lt (Nat.div_le_self _ _) hm)
  show sim_t.get_scr_value s which = _
  by_cases w0 : which = 0
  · subst w0
    simp only [sim_t.get_scr_value, if_true]
    exact h1
  · by_cases w1 : which = 1
    · subst w1
      simp only [sim_t.get_scr_value]
      rw [if_neg (by decide)]
      exact h2
    · rw [if_neg w0, if_neg w1]
      unfold sim_t.get_scr_value
      split
      · exact absurd rfl w0
      · exact absurd rfl w1
      · rfl

/-- C7 on `demoSim`, at index -5. -/
theorem C7_get_scr_lookup_witness :
    (demoSim.nprocs < 2 ^ 64 ∧ demoSim.memsz < 2 ^ 64) ∧
    (sim_t.get_scr demoSim (-5)).1
      = (if (-5 : Int) = 0 then demoSim.nprocs
         else if (-5 : Int) = 1 then demoSim.memsz / 2 ^ 20 else 2 ^ 64 - 1) ∧
    (sim_t.get_scr demoSim (-5)).2 = (demoSim, []) :=
  ⟨by decide, C7_get_scr_lookup demoSim (-5) (by decide) (by decide)⟩

/-- C8 (`send_ipi` targeting).  If `who < procs.size()`, `send_ipi(who)` makes
exactly one collaborator call, `deliver_ipi` on processor `who`, and changes
nothing but through that call; if `who >= procs.size()` it returns the state
unchanged without calling any collaborator and without a fault. -/
theorem C8_send_ipi_targeting {X : Type} (e : Env X) (who : Nat) (s : sim_t X) :
    (who < s.nprocs →
      sim_t.send_ipi e who s
        = .ok ({ s with world := e.deliver_ipi who s.world }, [.ipi who])) ∧
    (s.nprocs ≤ who → sim_t.send_ipi e who s = .ok (s, [])) := by
  refine ⟨fun h => ?_, fun h => ?_⟩
  · simp [sim_t.send_ipi, h]
  · simp [sim_t.send_ipi, Nat.not_lt.mpr h]

/-- C8 on `demoSim`: an interrupt for processor 1 and one for the absent
processor 2. -/
theorem C8_send_ipi_targeting_witness :
    (1 < demoSim.nprocs ∧ demoSim.nprocs ≤ 2) ∧
    sim_t.send_ipi demoEnv 1 demoSim
      = .ok ({ demoSim with world := demoEnv.deliver_ipi 1 demoSim.world }, [.ipi 1]) ∧
    sim_t.send_ipi demoEnv 2 demoSim = .ok (demoSim, []) :=
  ⟨by decide, (C8_send_ipi_targeting demoEnv 1 demoSim).1 (by decide),
    (C8_send_ipi_targeting demoEnv 2 demoSim).2 (by decide)⟩

theorem dispatches_ticks (k : Nat) : dispatches (List.replicate k Event.tick) = [] := by
  induction k with
  | zero => rfl
  | succ k ih => simpa [List.replicate_succ, dispatches] using ih

theorem yields_ticks (k : Nat) : yields (List.replicate k Event.tick) = [] := by
  induction k with
  | zero => rfl
  | succ k ih => simpa [List.replicate_succ, yields] using ih

/-- C9 (`stop()`: effect and frame).  With at least one processor: the write
`procs[0]->tohost = 1` sets the `tohost` of processor 0 to 1 and changes no
other `tohost` nor anything else; whenever `stop()` returns it has made that
write followed by `k` HTIF ticks and no other collaborator call (no dispatch, no
`yield_load_reservation`), `k` being the first number of ticks after which the
HTIF reports done, it has left `current_step`, `current_proc` and the other data
members as they were, and the HTIF reports done; if the HTIF reports done at
the first test of the loop, `stop()` returns without any tick, and so it does
if the HTIF reports done on entry and its report does not change with the
write to `tohost`. -/
theorem C9_stop_effect_and_frame {X : Type} (e : Env X) (fuel : Nat) (s : sim_t X)
    (h1 : 1 ≤ s.nprocs) :
    ((s.world.setTohost 0 1).tohost 0 = 1 ∧
      (∀ j, j ≠ 0 → (s.world.setTohost 0 1).tohost j = s.world.tohost j) ∧
      (s.world.setTohost 0 1).ext = s.world.ext) ∧
    (∀ s1 evs, sim_t.stop e fuel s = .ok (s1, evs) →
      ∃ k, evs = Event.tohost 0 1 :: List.replicate k Event.tick ∧
        s1 = { s with world := e.tick^[k] (s.world.setTohost 0 1) } ∧
        (∀ j, j < k → e.done (e.tick^[j] (s.world.setTohost 0 1)) = false) ∧
        e.done s1.world = true ∧
        dispatches evs = [] ∧ yields evs = [] ∧ ticks evs = k ∧
        s1.current_step = s.current_step ∧ s1.current_proc = s.current_proc) ∧
    (e.done (s.world.setTohost 0 1) = true → 0 < fuel →
      sim_t.stop e fuel s
        = .ok ({ s with world := s.world.setTohost 0 1 }, [Event.tohost 0 1])) ∧
    (e.done s.world = true → e.done (s.world.setTohost 0 1) = e.done s.world → 0 < fuel →
      sim_t.stop e fuel s
        = .ok ({ s with world := s.world.setTohost 0 1 }, [Event.tohost 0 1])) := by
  have hpos : 0 < s.nprocs := h1
  have hzero : e.done (s.world.setTohost 0 1) = true → 0 < fuel →
      sim_t.stop e fuel s
        = .ok ({ s with world := s.world.setTohost 0 1 }, [Event.tohost 0 1]) := by
    intro hd hf
    obtain ⟨f, rfl⟩ : ∃ f, fuel = f + 1 := ⟨fuel - 1, by omega⟩
    simp [sim_t.stop, hpos, sim_t.stopLoop, hd, emit]
  refine ⟨⟨?_, ?_, rfl⟩, ?_, hzero, fun hd hsame hf => hzero (by rw [hsame]; exact hd) hf⟩
  · simp [World.setTohost]
  · intro j hj
    simp [World.setTohost, hj]
  · intro s1 evs h
    unfold sim_t.stop at h
    rw [if_pos hpos, emit_eq_ok] at h
    obtain ⟨rest, hrest, rfl⟩ := h
    obtain ⟨k, _, rfl, hs1, hdone, hfirst⟩ := stopLoop_spec e fuel _ s1 rest hrest
    refine ⟨k, rfl, hs1, hfirst, hdone, ?_, ?_, ?_, ?_, ?_⟩
    · show dispatches (Event.tohost 0 1 :: List.replicate k Event.tick) = []
      simpa [dispatches] using dispatches_ticks k
    · show yields (Event.tohost 0 1 :: List.replicate k Event.tick) = []
      simpa [yields] using yields_ticks k
    · show ticks (Event.tohost 0 1 :: List.replicate k Event.tick) = k
      simp [ticks, List.count_cons, List.count_replicate]
    · rw [hs1]
    · rw [hs1]

/-- C9 on `demoEnv`: `stop()` on `demoSim`, which takes two ticks, and on
`doneSim`, which takes none. -/
theorem C9_stop_effect_and_frame_witness :
    (1 ≤ demoSim.nprocs ∧ 1 ≤ doneSim.nprocs ∧
      demoEnv.done (doneSim.world.setTohost 0 1) = true ∧ 0 < 1) ∧
    (∃ s1 evs, sim_t.stop demoEnv 20 demoSim = .ok (s1, evs) ∧
      ∃ k, evs = Event.tohost 0 1 :: List.replicate k Event.tick ∧
        s1 = { demoSim with world := demoEnv.tick^[k] (demoSim.world.setTohost 0 1) } ∧
        (∀ j, j < k → demoEnv.done (demoEnv.tick^[j] (demoSim.world.setTohost 0 1)) = false) ∧
        demoEnv.done s1.world = true ∧
        dispatches evs = [] ∧ yields evs = [] ∧ ticks evs = k ∧
        s1.current_step = demoSim.current_step ∧ s1.current_proc = demoSim.current_proc) ∧
    sim_t.stop demoEnv 1 doneSim
      = .ok ({ doneSim with world := doneSim.world.setTohost 0 1 }, [Event.tohost 0 1]) :=
  ⟨by decide,
   ⟨_, _, rfl, (C9_stop_effect_and_frame demoEnv 20 demoSim (by decide)).2.1 _ _ rfl⟩,
   (C9_stop_effect_and_frame demoEnv 1 doneSim (by decide)).2.2.1 (by decide) (by decide)⟩

/-- C10 (`run()` after completion).  If the HTIF reports done when `run()` is
called, `run()` returns at its first test with the state unchanged and without
any collaborator call: no dispatch, no tick, no `interactive()`.  Whenever
`run()` returns, the HTIF reports done. -/
theorem C10_run_after_completion {X : Type} (e : Env X) (s : sim_t X) :
    (e.done s.world = true → ∀ fuel, 0 < fuel → sim_t.run e fuel s = .ok (s, [])) ∧
    (∀ fuel s1 evs, sim_t.run e fuel s = .ok (s1, evs) → e.done s1.world = true) := by
  refine ⟨fun hd fuel hf => ?_, fun fuel s1 evs h => run_done e fuel s s1 evs h⟩
  obtain ⟨f, rfl⟩ : ∃ f, fuel = f + 1 := ⟨fuel - 1, by omega⟩
  exact run_of_done e f s hd

/-- C10 on `demoEnv`: `run()` on `doneSim`, where the HTIF is done, and on
`demoSim`, where it becomes done during the first `step`. -/
theorem C10_run_after_completion_witness :
    (demoEnv.done doneSim.world = true ∧ 0 < 1) ∧
    sim_t.run demoEnv 1 doneSim = .ok (doneSim, []) ∧
    ∃ s1 evs, sim_t.run demoEnv 20 demoSim = .ok (s1, evs) ∧ demoEnv.done s1.world = true :=
  ⟨by decide,
   (C10_run_after_completion demoEnv doneSim).1 (by decide) 1 (by decide),
   _, _, rfl, (C10_run_after_completion demoEnv demoSim).2 20 _ _ rfl⟩

/-! ## Completion, memory size reported back, periodicity -/

theorem running_false_of_all {X : Type} (e : Env X) (s : sim_t X)
    (h : ∀ p, p < s.nprocs → e.procRunning p s.world = false) :
    sim_t.running e s = false := by
  unfold sim_t.running
  rw [List.any_eq_false]
  intro p hp
  rw [h p (List.mem_range.mp hp)]
  simp

/-- C11, as stated, fails: on `liveEnv` the HTIF reports done in the state
`doneSim` and keeps doing so after every tick, yet `step(1)` dispatches one
step to processor 1, because `step` tests `running()` and never `done()`. -/
theorem C11_step_after_completion_counterexample :
    liveEnv.done doneSim.world = true ∧
    (∀ w, liveEnv.done w = true → liveEnv.done (liveEnv.tick w) = true) ∧
    ∃ s1 evs, sim_t.step liveEnv 2 1 false doneSim = .ok (s1, evs) ∧
      dispatches evs = [(1, 1)] ∧ liveEnv.done s1.world = true := by
  refine ⟨by decide, ?_, _, _, rfl, rfl, by decide⟩
  intro w h
  simp only [liveEnv, demoEnv, decide_eq_true_eq] at h ⊢
  omega

/-- C11, amended.  If the HTIF reports done, keeps reporting done after a
tick, and reports done only in states in which no processor of the vector is
running, then `step(n)` returns for every `n` without dispatching a batch to
any processor and without calling `yield_load_reservation`; it leaves
`current_step` and `current_proc` as they were and the HTIF still done. -/
theorem C11_step_after_completion {X : Type} (e : Env X) (fuel n : Nat) (noisy : Bool)
    (s : sim_t X) (hfuel : 0 < fuel) (hdone : e.done s.world = true)
    (hstay : ∀ w, e.done w = true → e.done (e.tick w) = true)
    (hhalt : ∀ w, e.done w = true → ∀ p, p < s.nprocs → e.procRunning p w = false) :
    ∃ s1 evs, sim_t.step e fuel n noisy s = .ok (s1, evs) ∧
      dispatches evs = [] ∧ yields evs = [] ∧
      s1.current_step = s.current_step ∧ s1.current_proc = s.current_proc ∧
      e.done s1.world = true := by
  obtain ⟨f, rfl⟩ : ∃ f, fuel = f + 1 := ⟨fuel - 1, by omega⟩
  by_cases hn : 0 < n
  · have hd : sim_t.running e (s.ticked e) = false :=
      running_false_of_all e (s.ticked e) (hhalt (e.tick s.world) (hstay _ hdone))
    refine ⟨s.ticked e, [.tick, .liveness false], stepLoop_dead e n noisy f 0 s hn hd,
      rfl, rfl, rfl, rfl, hstay _ hdone⟩
  · exact ⟨s, [], stepLoop_exit e n noisy f 0 s (by omega), rfl, rfl, rfl, rfl, hdone⟩

/-- C11 amended, on `haltEnv`: five steps asked in the state `doneSim`. -/
theorem C11_step_after_completion_witness :
    (0 < 1 ∧ haltEnv.done doneSim.world = true) ∧
    ∃ s1 evs, sim_t.step haltEnv 1 5 true doneSim = .ok (s1, evs) ∧
      dispatches evs = [] ∧ yields evs = [] ∧
      s1.current_step = doneSim.current_step ∧ s1.current_proc = doneSim.current_proc ∧
      haltEnv.done s1.world = true :=
  ⟨by decide,
   C11_step_after_completion haltEnv 1 5 true doneSim (by decide) (by decide)
     (fun w h => by
       simp only [haltEnv, demoEnv, decide_eq_true_eq] at h ⊢
       omega)
     (fun w h p _ => by
       simp only [haltEnv, demoEnv, decide_eq_true_eq, decide_eq_false_iff_not] at h ⊢
       omega)⟩

theorem shrink_le {X : Type} (e : Env X) (q x : Nat) : e.wmul x 10 / 11 / q * q ≤ x := by
  rcases Nat.eq_zero_or_pos x with h | h
  · rw [h, shrink_zero]
  · exact Nat.le_of_lt (shrink_lt e q x h)

/-- Whatever the retry loop obtains is at most the size it was entered with. -/
theorem shrinkLoop_ok_le {X : Type} (e : Env X) (q : Nat) :
    ∀ (fuel k x r : Nat) (evs : List Event),
      sim_t.shrinkLoop e q fuel k x = .ok (r, evs) → r ≤ x := by
  intro fuel
  induction fuel with
  | zero =>
    intro k x r evs h
    simp [sim_t.shrinkLoop] at h
  | succ fuel ih =>
    intro k x r evs h
    have hle := shrink_le e q x
    by_cases h0 : e.wmul x 10 / 11 / q * q = 0
    · simp [sim_t.shrinkLoop, h0] at h
    · cases hm : e.mmapOk k (e.wmul x 10 / 11 / q * q) with
      | true =>
        simp only [sim_t.shrinkLoop, h0, if_false, hm, if_true, Except.ok.injEq,
          Prod.mk.injEq] at h
        omega
      | false =>
        simp only [sim_t.shrinkLoop, h0, if_false, hm, Bool.false_eq_true] at h
        rw [emit_eq_ok] at h
        obtain ⟨rest, hrest, _⟩ := h
        have := ih _ _ _ _ hrest
        omega

/-- Whatever the allocator obtains is at most the rounded request. -/
theorem allocateFrom_ok_le {X : Type} (e : Env X) (fuel m r : Nat) (evs : List Event)
    (h : sim_t.allocateFrom e fuel m = .ok (r, evs)) :
    r ≤ m / sim_t.quantum e * sim_t.quantum e := by
  unfold sim_t.allocateFrom at h
  by_cases hq : sim_t.quantum e = 0
  · simp [hq] at h
  · cases hm : e.mmapOk 0 (m / sim_t.quantum e * sim_t.quantum e) with
    | true =>
      simp only [hq, if_false, hm, if_true, Except.ok.injEq, Prod.mk.injEq] at h
      omega
    | false =>
      simp only [hq, if_false, hm, Bool.false_eq_true] at h
      rw [emit_eq_ok] at h
      obtain ⟨rest, hrest, _⟩ := h
      exact shrinkLoop_ok_le e _ _ _ _ _ _ hrest

/-- The request of lines 22-24 in bytes, when `mem_mb << 20` does not wrap. -/
theorem memsz0_eq {X : Type} (e : Env X) (mem_mb : Nat)
    (hbits : e.sizeBits = 64 ∨ e.sizeBits = 32) (hfit : mem_mb * 2 ^ 20 < e.sizeMod) :
    sim_t.memsz0 e mem_mb = configuredMb e mem_mb * 2 ^ 20 := by
  unfold sim_t.memsz0 configuredMb
  rw [Nat.mod_eq_of_lt hfit]
  by_cases h0 : mem_mb = 0
  · rcases hbits with hb | hb
    · simp [h0, hb, Env.sizeMod]
    · simp [h0, hb, Env.sizeMod]
  · have : mem_mb * 2 ^ 20 ≠ 0 := by
      have : 0 < mem_mb := Nat.pos_of_ne_zero h0
      positivity
    simp [h0, this]

theorem memsz0_lt {X : Type} (e : Env X) (mem_mb : Nat)
    (hbits : e.sizeBits = 64 ∨ e.sizeBits = 32) (hfit : mem_mb * 2 ^ 20 < e.sizeMod) :
    configuredMb e mem_mb * 2 ^ 20 < 2 ^ 64 := by
  unfold configuredMb
  by_cases h0 : mem_mb = 0
  · rcases hbits with hb | hb
    · simp [h0, hb]
    · simp [h0, hb]
  · rw [if_neg h0]
    rcases hbits with hb | hb
    · simpa [Env.sizeMod, hb] using hfit
    · have : e.sizeMod = 2 ^ 32 := by simp [Env.sizeMod, hb]
      rw [this] at hfit
      exact Nat.lt_trans hfit (by norm_num)

/-- C12, as stated, fails: on `demoEnv`, whose first mapping fails, the
constructor asked for 1 megabyte succeeds with a smaller region, and `get_scr(1)`
then returns 0 instead of 1. -/
theorem C12_configured_memory_counterexample :
    ∃ s evs, sim_t.construct demoEnv 9 demoWorld 1 1 = .ok (s, evs) ∧
      (sim_t.get_scr s 1).1 = 0 ∧ (sim_t.get_scr s 1).1 ≠ configuredMb demoEnv 1 :=
  ⟨_, _, rfl, rfl, by decide⟩

/-- C12, amended.  Let `size_t` have 64 or 32 bits and let `mem_mb << 20` not
wrap.  Whenever the constructor returns, `get_scr(1)` is `memsz >> 20` for the
obtained `memsz` and at most the configured size in megabytes (`mem_mb`, or 4096
resp. 1024 for `mem_mb = 0`).  If moreover the quantum divides `2^20`, at least
one processor is requested and the first mapping succeeds, the constructor
returns and `get_scr(1)` equals the configured size in megabytes. -/
theorem C12_configured_memory_reported {X : Type} (e : Env X) (fuel : Nat) (w0 : World X)
    (c mem_mb : Nat) (hbits : e.sizeBits = 64 ∨ e.sizeBits = 32)
    (hfit : mem_mb * 2 ^ 20 < e.sizeMod) :
    (∀ s evs, sim_t.construct e fuel w0 c mem_mb = .ok (s, evs) →
      (sim_t.get_scr s 1).1 = s.memsz / 2 ^ 20 ∧
      (sim_t.get_scr s 1).1 ≤ configuredMb e mem_mb) ∧
    (1 ≤ c → 1 ≤ sim_t.quantum e → sim_t.quantum e ∣ 2 ^ 20 →
      e.mmapOk 0 (sim_t.memsz0 e mem_mb / sim_t.quantum e * sim_t.quantum e) = true →
      ∃ s evs, sim_t.construct e fuel w0 c mem_mb = .ok (s, evs) ∧
        (sim_t.get_scr s 1).1 = configuredMb e mem_mb) := by
  have hm0 := memsz0_eq e mem_mb hbits hfit
  have hlt := memsz0_lt e mem_mb hbits hfit
  refine ⟨?_, ?_⟩
  · intro s evs h
    obtain ⟨_, ha, _⟩ := construct_ok e fuel w0 c mem_mb s evs h
    have h1 := allocateFrom_ok_le e fuel _ _ _ ha
    have h2 : sim_t.memsz0 e mem_mb / sim_t.quantum e * sim_t.quantum e
        ≤ sim_t.memsz0 e mem_mb := Nat.div_mul_le_self _ _
    have h3 : s.memsz ≤ configuredMb e mem_mb * 2 ^ 20 := by
      rw [← hm0]
      exact Nat.le_trans h1 h2
    have h4 : s.memsz / 2 ^ 20 ≤ configuredMb e mem_mb :=
      Nat.div_le_of_le_mul (by rw [Nat.mul_comm]; exact h3)
    have h5 : s.memsz / 2 ^ 20 % 2 ^ 64 = s.memsz / 2 ^ 20 :=
      Nat.mod_eq_of_lt (by
        have : s.memsz / 2 ^ 20 ≤ s.memsz := Nat.div_le_self _ _
        omega)
    have h6 : (sim_t.get_scr s 1).1 = s.memsz / 2 ^ 20 := h5
    exact ⟨h6, by rw [h6]; exact h4⟩
  · intro hc hq hdiv hfirst
    have hdvd : sim_t.quantum e ∣ sim_t.memsz0 e mem_mb := by
      rw [hm0]
      exact Dvd.dvd.mul_left hdiv _
    have hround : sim_t.memsz0 e mem_mb / sim_t.quantum e * sim_t.quantum e
        = sim_t.memsz0 e mem_mb := Nat.div_mul_cancel hdvd
    have halloc := allocateFrom_first e fuel (sim_t.memsz0 e mem_mb) hq hfirst
    rw [hround] at halloc
    have hc0 : c ≠ 0 := by omega
    refine ⟨{ nprocs := c, memsz := sim_t.memsz0 e mem_mb, current_step := 0,
              current_proc := 0, debug := false, world := w0 },
            [.mmap (sim_t.memsz0 e mem_mb) true], ?_, ?_⟩
    · rw [construct_eq]
      unfold sim_t.allocate
      rw [halloc]
      simp [hc0]
    · show sim_t.memsz0 e mem_mb / 2 ^ 20 % 2 ^ 64 = configuredMb e mem_mb
      rw [hm0, Nat.mul_div_cancel _ (by norm_num : 0 < 2 ^ 20)]
      exact Nat.mod_eq_of_lt (by omega)

/-- C12 amended, on `roomyEnv`, whose first mapping succeeds: the constructor
asked for two processors and 3 megabytes. -/
theorem C12_configured_memory_reported_witness :
    ((roomyEnv.sizeBits = 64 ∨ roomyEnv.sizeBits = 32) ∧ 3 * 2 ^ 20 < roomyEnv.sizeMod ∧
      1 ≤ 2 ∧ 1 ≤ sim_t.quantum roomyEnv ∧ sim_t.quantum roomyEnv ∣ 2 ^ 20 ∧
      roomyEnv.mmapOk 0
        (sim_t.memsz0 roomyEnv 3 / sim_t.quantum roomyEnv * sim_t.quantum roomyEnv) = true) ∧
    (∀ s evs, sim_t.construct roomyEnv 9 demoWorld 2 3 = .ok (s, evs) →
      (sim_t.get_scr s 1).1 = s.memsz / 2 ^ 20 ∧
      (sim_t.get_scr s 1).1 ≤ configuredMb roomyEnv 3) ∧
    ∃ s evs, sim_t.construct roomyEnv 9 demoWorld 2 3 = .ok (s, evs) ∧
      (sim_t.get_scr s 1).1 = configuredMb roomyEnv 3 :=
  have h := C12_configured_memory_reported roomyEnv 9 demoWorld 2 3 (by decide) (by decide)
  ⟨by decide, h.1, h.2 (by decide) (by decide) (by decide) (by decide)⟩

/-- C13 (full-rotation periodicity).  From a state satisfying the invariant,
`step(P * INTERLEAVE)` with `P = procs.size()` returns, and if none of its
liveness checks fails (in particular if some processor is running in every
collaborator state) `current_step` and `current_proc` have on return the values
they had on entry. -/
theorem C13_full_rotation_periodicity {X : Type} (e : Env X) (fuel : Nat) (noisy : Bool)
    (s : sim_t X) (hI : e.fits e.INTERLEAVE) (hP : e.fits s.nprocs)
    (hn : e.fits (s.nprocs * e.INTERLEAVE)) (hinv : s.inv e)
    (hfuel : s.nprocs * e.INTERLEAVE < fuel) :
    ∃ s1 evs, sim_t.step e fuel (s.nprocs * e.INTERLEAVE) noisy s = .ok (s1, evs) ∧
      ((∀ w, ∃ p, p < s.nprocs ∧ e.procRunning p w = true) → allAlive evs) ∧
      (allAlive evs →
        s1.current_step = s.current_step ∧ s1.current_proc = s.current_proc) := by
  obtain ⟨s1, evs, h⟩ := stepLoop_returns e (s.nprocs * e.INTERLEAVE) noisy hI hn fuel 0 s
    hP hinv (by omega)
  refine ⟨s1, evs, h, stepLoop_allAlive e _ noisy hI hn fuel 0 s s1 evs hP hinv h, ?_⟩
  intro ha
  obtain ⟨hcs, hcp⟩ := hinv
  obtain ⟨_, _, h3, h4⟩ := stepLoop_closed e _ noisy hI hn fuel 0 s s1 evs hP ⟨hcs, hcp⟩ h ha
  have hIL : 0 < e.INTERLEAVE := by omega
  rw [Nat.sub_zero] at h3 h4
  rw [Nat.add_mul_mod_self_right, Nat.mod_eq_of_lt hcs] at h3
  rw [Nat.add_mul_div_right _ _ hIL, Nat.div_eq_of_lt hcs, Nat.zero_add, Nat.add_mod_right,
    Nat.mod_eq_of_lt hcp] at h4
  exact ⟨h3, h4⟩

/-- C13 on `liveEnv`: two processors, `step(2 * INTERLEAVE)` from the state
`(current_step, current_proc) = (0, 0)`. -/
theorem C13_full_rotation_periodicity_witness :
    (liveEnv.fits liveEnv.INTERLEAVE ∧ liveEnv.fits freshSim.nprocs ∧
      liveEnv.fits (freshSim.nprocs * liveEnv.INTERLEAVE) ∧ freshSim.inv liveEnv ∧
      freshSim.nprocs * liveEnv.INTERLEAVE < 7 ∧ freshSim.nprocs = 2 ∧
      freshSim.current_step = 0 ∧ freshSim.current_proc = 0) ∧
    ∃ s1 evs, sim_t.step liveEnv 7 (freshSim.nprocs * liveEnv.INTERLEAVE) false freshSim
        = .ok (s1, evs) ∧
      ((∀ w, ∃ p, p < freshSim.nprocs ∧ liveEnv.procRunning p w = true) → allAlive evs) ∧
      (allAlive evs →
        s1.current_step = freshSim.current_step ∧ s1.current_proc = freshSim.current_proc) :=
  ⟨by decide,
   C13_full_rotation_periodicity liveEnv 7 false freshSim (by decide) (by decide) (by decide)
     (by decide) (by decide)⟩

/-! ## Batch sizing, progress, and what liveness means for a dispatch -/

theorem stepLoop_batchesSized {X : Type} (e : Env X) (n : Nat) (noisy : Bool)
    (hI : e.fits e.INTERLEAVE) (hn : e.fits n)
    (fuel i : Nat) (s s1 : sim_t X) (evs : List Event) (hP : e.fits s.nprocs)
    (hinv : s.inv e) (h : sim_t.stepLoop e n noisy fuel i s = .ok (s1, evs)) :
    batchesSized e.INTERLEAVE s.nprocs n i s.current_step s.current_proc evs = true := by
  refine stepLoop_induct e n noisy hI hn
    (fun i s _ evs =>
      batchesSized e.INTERLEAVE s.nprocs n i s.current_step s.current_proc evs = true)
    ?_ ?_ ?_ ?_ fuel i s s1 evs hP hinv h
  · intro i s _ _
    rfl
  · intro i s _ _ _
    simp [batchesSized]
  · intro i s s1 rest hi hinv _ hlt ih
    have hkl := batch_le_left e n i s
    have ih2 : batchesSized e.INTERLEAVE s.nprocs n (i + s.batch e n i)
        (s.current_step + s.batch e n i) s.current_proc rest = true := ih
    have hk : s.batch e n i = min (n - i) (e.INTERLEAVE - s.current_step) := rfl
    have h1 : s.current_step + s.batch e n i ≤ e.INTERLEAVE := Nat.le_of_lt hlt
    have h2 : i + s.batch e n i ≤ n := by omega
    simp [batchesSized, ih2, ← hk, h1, h2]
  · intro i s s1 rest hi hinv _ hq ih
    have hkl := batch_le_left e n i s
    have ih2 : batchesSized e.INTERLEAVE s.nprocs n (i + s.batch e n i) 0
        (if s.current_proc + 1 = s.nprocs then 0 else s.current_proc + 1) rest = true := ih
    have hk : s.batch e n i = min (n - i) (e.INTERLEAVE - s.current_step) := rfl
    have h1 : s.current_step + s.batch e n i ≤ e.INTERLEAVE := Nat.le_of_eq hq
    have h2 : i + s.batch e n i ≤ n := by omega
    simp [batchesSized, ih2, ← hk, h1, h2, hq]

/-- C14 (batch sizing).  From a state satisfying the invariant, `step(n)` returns
and its event list obeys `batchesSized`: every batch goes to the processor at
`current_proc` as it is at that moment and has size
`min(n - steps dispatched so far, INTERLEAVE - current_step)`, so that
`current_step + size <= INTERLEAVE` and `steps dispatched so far + size <= n`;
`current_proc` changes only at a rotation, so all batches between two rotations
go to one processor. -/
theorem C14_batch_sizing {X : Type} (e : Env X) (fuel n : Nat) (noisy : Bool)
    (s : sim_t X) (hI : e.fits e.INTERLEAVE) (hP : e.fits s.nprocs) (hn : e.fits n)
    (hinv : s.inv e) (hfuel : n < fuel) :
    ∃ s1 evs, sim_t.step e fuel n noisy s = .ok (s1, evs) ∧
      batchesSized e.INTERLEAVE s.nprocs n 0 s.current_step s.current_proc evs = true := by
  obtain ⟨s1, evs, h⟩ := stepLoop_returns e n noisy hI hn fuel 0 s hP hinv (by omega)
  exact ⟨s1, evs, h, stepLoop_batchesSized e n noisy hI hn fuel 0 s s1 evs hP hinv h⟩

/-- C14 on `liveEnv`: seven steps asked from `demoSim`. -/
theorem C14_batch_sizing_witness :
    (liveEnv.fits liveEnv.INTERLEAVE ∧ liveEnv.fits demoSim.nprocs ∧ liveEnv.fits 7 ∧
      demoSim.inv liveEnv ∧ 7 < 8) ∧
    ∃ s1 evs, sim_t.step liveEnv 8 7 true demoSim = .ok (s1, evs) ∧
      batchesSized liveEnv.INTERLEAVE demoSim.nprocs 7 0 demoSim.current_step
        demoSim.current_proc evs = true :=
  ⟨by decide,
   C14_batch_sizing liveEnv 8 7 true demoSim (by decide) (by decide) (by decide) (by decide)
     (by decide)⟩

/-! ## The sequence of sizes tried by the allocator -/

theorem shrinkSeq_succ_le (q m k : Nat) : shrinkSeq q m (k + 1) ≤ shrinkSeq q m k := by
  show 10 * shrinkSeq q m k / 11 / q * q ≤ shrinkSeq q m k
  have h := Nat.div_mul_le_self (10 * shrinkSeq q m k / 11) q
  omega

theorem shrinkSeq_le_zero (q m : Nat) : ∀ k, shrinkSeq q m k ≤ shrinkSeq q m 0 := by
  intro k
  induction k with
  | zero => exact Nat.le_refl _
  | succ k ih => exact Nat.le_trans (shrinkSeq_succ_le q m k) ih

theorem shrinkSeq_succ_lt (q m k : Nat) (h : shrinkSeq q m (k + 1) ≠ 0) :
    shrinkSeq q m (k + 1) < shrinkSeq q m k := by
  have h1 : shrinkSeq q m (k + 1) = 10 * shrinkSeq q m k / 11 / q * q := rfl
  have h2 := Nat.div_mul_le_self (10 * shrinkSeq q m k / 11) q
  rcases Nat.eq_zero_or_pos (shrinkSeq q m k) with h0 | h0
  · rw [h0] at h1
    simp at h1
    exact absurd h1 h
  · omega

/-- Without wrap-around the update of line 34 is the step of `shrinkSeq`. -/
theorem shrink_eq_seq {X : Type} (e : Env X) (q m k : Nat)
    (hov : 10 * shrinkSeq q m 0 < e.sizeMod) :
    e.wmul (shrinkSeq q m k) 10 / 11 / q * q = shrinkSeq q m (k + 1) := by
  have hle := shrinkSeq_le_zero q m k
  have : e.wmul (shrinkSeq q m k) 10 = 10 * shrinkSeq q m k := by
    unfold Env.wmul
    rw [Nat.mod_eq_of_lt (by omega), Nat.mul_comm]
  rw [this]
  rfl

/-- The retry loop entered after sizes number `0, ..., k` were refused: it ends
in the assertion at the first later size that is zero, all sizes before it
having been refused, or obtains the first later size that is accepted, no size
up to it being zero. -/
theorem shrinkLoop_seq {X : Type} (e : Env X) (q m : Nat)
    (hov : 10 * shrinkSeq q m 0 < e.sizeMod) :
    ∀ (fuel k : Nat), shrinkSeq q m k < fuel →
      (sim_t.shrinkLoop e q fuel (k + 1) (shrinkSeq q m k) = .error .assertFailed ∧
        ∃ d, shrinkSeq q m (k + 1 + d) = 0 ∧
          ∀ j, j < d → shrinkSeq q m (k + 1 + j) ≠ 0 ∧
            e.mmapOk (k + 1 + j) (shrinkSeq q m (k + 1 + j)) = false) ∨
      ∃ d, sim_t.shrinkLoop e q fuel (k + 1) (shrinkSeq q m k)
          = .ok (shrinkSeq q m (k + 1 + d),
              (List.range' (k + 1) d).map (fun j => Event.mmap (shrinkSeq q m j) false)
                ++ [Event.mmap (shrinkSeq q m (k + 1 + d)) true]) ∧
        e.mmapOk (k + 1 + d) (shrinkSeq q m (k + 1 + d)) = true ∧
        ∀ j, j ≤ d → shrinkSeq q m (k + 1 + j) ≠ 0 ∧
          (j < d → e.mmapOk (k + 1 + j) (shrinkSeq q m (k + 1 + j)) = false) := by
  intro fuel
  induction fuel with
  | zero =>
    intro k h
    omega
  | succ fuel ih =>
    intro k hk
    have hstep := shrink_eq_seq e q m k hov
    by_cases h0 : shrinkSeq q m (k + 1) = 0
    · left
      refine ⟨by simp [sim_t.shrinkLoop, hstep, h0], 0, h0, fun j hj => absurd hj (by omega)⟩
    · have hlt := shrinkSeq_succ_lt q m k h0
      cases hm : e.mmapOk (k + 1) (shrinkSeq q m (k + 1)) with
      | true =>
        right
        refine ⟨0, by simp [sim_t.shrinkLoop, hstep, h0, hm], hm, fun j hj => ?_⟩
        have hj0 : j = 0 := by omega
        subst hj0
        exact ⟨h0, fun h => absurd h (by omega)⟩
      | false =>
        have hunf : sim_t.shrinkLoop e q (fuel + 1) (k + 1) (shrinkSeq q m k)
            = emit [.mmap (shrinkSeq q m (k + 1)) false]
                (sim_t.shrinkLoop e q fuel (k + 1 + 1) (shrinkSeq q m (k + 1))) := by
          simp [sim_t.shrinkLoop, hstep, h0, hm]
        rw [hunf]
        rcases ih (k + 1) (by omega) with ⟨herr, d, hz, hrej⟩ | ⟨d, hok, hacc, hnz⟩
        · left
          refine ⟨by rw [herr]; rfl, d + 1, ?_, ?_⟩
          · rw [← hz]
            congr 1
            omega
          · intro j hj
            cases j with
            | zero => exact ⟨h0, hm⟩
            | succ j =>
              have hidx : k + 1 + (j + 1) = k + 1 + 1 + j := by omega
              rw [hidx]
              exact hrej j (by omega)
        · right
          have hidx : k + 1 + (d + 1) = k + 1 + 1 + d := by omega
          refine ⟨d + 1, ?_, ?_, ?_⟩
          · rw [hok, hidx, List.range'_succ]
            rfl
          · rw [hidx]
            exact hacc
          · intro j hj
            cases j with
            | zero => exact ⟨h0, fun _ => hm⟩
            | succ j =>
              have hidx2 : k + 1 + (j + 1) = k + 1 + 1 + j := by omega
              rw [hidx2]
              exact ⟨(hnz j (by omega)).1, fun hjd => (hnz j (by omega)).2 (by omega)⟩

/-- The allocator either ends in the assertion, every size before the first
zero of the sequence having been refused, or obtains the first accepted size of
the sequence, having tried the sizes before it in order. -/
theorem allocateFrom_seq {X : Type} (e : Env X) (fuel m : Nat) (hq : 1 ≤ sim_t.quantum e)
    (hov : 10 * shrinkSeq (sim_t.quantum e) m 0 < e.sizeMod) (hfuel : m < fuel) :
    (sim_t.allocateFrom e fuel m = .error .assertFailed ∧
      ∃ K, 1 ≤ K ∧ shrinkSeq (sim_t.quantum e) m K = 0 ∧
        ∀ j, j < K → e.mmapOk j (shrinkSeq (sim_t.quantum e) m j) = false ∧
          (1 ≤ j → shrinkSeq (sim_t.quantum e) m j ≠ 0)) ∨
    ∃ K, sim_t.allocateFrom e fuel m
        = .ok (shrinkSeq (sim_t.quantum e) m K, attempts (sim_t.quantum e) m K) ∧
      e.mmapOk K (shrinkSeq (sim_t.quantum e) m K) = true ∧
      (∀ j, j < K → e.mmapOk j (shrinkSeq (sim_t.quantum e) m j) = false) ∧
      ∀ j, 1 ≤ j → j ≤ K → shrinkSeq (sim_t.quantum e) m j ≠ 0 := by
  have hq0 : sim_t.quantum e ≠ 0 := by omega
  have hs0 : shrinkSeq (sim_t.quantum e) m 0 = m / sim_t.quantum e * sim_t.quantum e := rfl
  have hle : shrinkSeq (sim_t.quantum e) m 0 ≤ m := by
    rw [hs0]
    exact Nat.div_mul_le_self _ _
  cases hm : e.mmapOk 0 (shrinkSeq (sim_t.quantum e) m 0) with
  | true =>
    right
    refine ⟨0, ?_, hm, fun j hj => absurd hj (by omega), fun j h1 h2 => absurd h1 (by omega)⟩
    rw [hs0] at hm
    rw [allocateFrom_first e fuel m hq hm]
    rfl
  | false =>
    have hunf : sim_t.allocateFrom e fuel m
        = emit [.mmap (shrinkSeq (sim_t.quantum e) m 0) false]
            (sim_t.shrinkLoop e (sim_t.quantum e) fuel (0 + 1)
              (shrinkSeq (sim_t.quantum e) m 0)) := by
      rw [hs0] at hm ⊢
      simp [sim_t.allocateFrom, hq0, hm]
    rw [hunf]
    rcases shrinkLoop_seq e (sim_t.quantum e) m hov fuel 0 (by omega)
      with ⟨herr, d, hz, hrej⟩ | ⟨d, hok, hacc, hnz⟩
    · left
      refine ⟨by rw [herr]; rfl, d + 1, by omega, ?_, ?_⟩
      · rw [← hz]
        congr 1
        omega
      · intro j hj
        cases j with
        | zero => exact ⟨hm, fun h => absurd h (by omega)⟩
        | succ j =>
          have hidx : j + 1 = 0 + 1 + j := by omega
          rw [hidx]
          exact ⟨(hrej j (by omega)).2, fun _ => (hrej j (by omega)).1⟩
    · right
      have hidx : 0 + 1 + d = d + 1 := by omega
      rw [hidx] at hok hacc
      refine ⟨d + 1, ?_, hacc, ?_, ?_⟩
      · rw [hok]
        unfold attempts
        rw [List.range_eq_range', List.range'_succ]
        rfl
      · intro j hj
        cases j with
        | zero => exact hm
        | succ j =>
          have hidx2 : j + 1 = 0 + 1 + j := by omega
          rw [hidx2]
          exact (hnz j (by omega)).2 (by omega)
      · intro j h1 h2
        obtain ⟨i, rfl⟩ : ∃ i, j = 0 + 1 + i := ⟨j - 1, by omega⟩
        exact (hnz i (by omega)).1

/-- C15 (shrink-and-retry result).  Let `s` be the sequence `shrinkSeq` for the
quantum `q >= 1` and the request `m`, let `10 * s 0` fit `size_t`, and let the
loop be given more iterations than `m`.  The allocator returns `memsz` with
event list `evs` exactly if for some `K` the mapper accepts `s K` at call `K`,
has refused `s 0, ..., s (K-1)`, none of `s 1, ..., s K` is zero, `memsz = s K`
and `evs` is the calls for `s 0, ..., s K` in this order.  It ends in the
assertion exactly if the sequence reaches zero at some `K >= 1` with every size
before it refused. -/
theorem C15_shrink_and_retry_result {X : Type} (e : Env X) (fuel m : Nat)
    (hq : 1 ≤ sim_t.quantum e)
    (hov : 10 * shrinkSeq (sim_t.quantum e) m 0 < e.sizeMod) (hfuel : m < fuel) :
    (∀ memsz evs, sim_t.allocateFrom e fuel m = .ok (memsz, evs) ↔
      ∃ K, memsz = shrinkSeq (sim_t.quantum e) m K ∧ evs = attempts (sim_t.quantum e) m K ∧
        e.mmapOk K (shrinkSeq (sim_t.quantum e) m K) = true ∧
        (∀ j, j < K → e.mmapOk j (shrinkSeq (sim_t.quantum e) m j) = false) ∧
        ∀ j, 1 ≤ j → j ≤ K → shrinkSeq (sim_t.quantum e) m j ≠ 0) ∧
    (sim_t.allocateFrom e fuel m = .error .assertFailed ↔
      ∃ K, 1 ≤ K ∧ shrinkSeq (sim_t.quantum e) m K = 0 ∧
        ∀ j, j < K → e.mmapOk j (shrinkSeq (sim_t.quantum e) m j) = false) := by
  have hseq := allocateFrom_seq e fuel m hq hov hfuel
  refine ⟨fun memsz evs => ⟨fun h => ?_, fun h => ?_⟩, ⟨fun h => ?_, fun h => ?_⟩⟩
  · rcases hseq with ⟨herr, _⟩ | ⟨K, hok, hacc, hrej, hnz⟩
    · rw [herr] at h
      exact absurd h (by simp)
    · rw [hok] at h
      simp only [Except.ok.injEq, Prod.mk.injEq] at h
      exact ⟨K, h.1.symm, h.2.symm, hacc, hrej, hnz⟩
  · obtain ⟨K, rfl, rfl, hacc, hrej, hnz⟩ := h
    rcases hseq with ⟨_, K1, h1, hz, hrej1⟩ | ⟨K2, hok, hacc2, hrej2, _⟩
    · rcases Nat.lt_or_ge K K1 with hlt | hge
      · rw [(hrej1 K hlt).1] at hacc
        exact absurd hacc (by simp)
      · exact absurd hz (hnz K1 h1 hge)
    · rcases Nat.lt_trichotomy K K2 with hlt | heq | hgt
      · rw [hrej2 K hlt] at hacc
        exact absurd hacc (by simp)
      · rw [heq]
        exact hok
      · rw [hrej K2 hgt] at hacc2
        exact absurd hacc2 (by simp)
  · rcases hseq with ⟨_, K, h1, hz, hrej⟩ | ⟨K, hok, _⟩
    · exact ⟨K, h1, hz, fun j hj => (hrej j hj).1⟩
    · rw [hok] at h
      exact absurd h (by simp)
  · obtain ⟨K, h1, hz, hrej⟩ := h
    rcases hseq with ⟨herr, _⟩ | ⟨K2, _, hacc2, _, hnz2⟩
    · exact herr
    · rcases Nat.lt_or_ge K2 K with hlt | hge
      · rw [hrej K2 hlt] at hacc2
        exact absurd hacc2 (by simp)
      · exact absurd hz (hnz2 K h1 hge)

/-- C15 on `demoEnv`, whose mapper refuses the first call: 1000 bytes requested
with quantum 4. -/
theorem C15_shrink_and_retry_result_witness :
    (1 ≤ sim_t.quantum demoEnv ∧
      10 * shrinkSeq (sim_t.quantum demoEnv) 1000 0 < demoEnv.sizeMod ∧ 1000 < 1001) ∧
    sim_t.allocateFrom demoEnv 1001 1000 = .ok (908, attempts (sim_t.quantum demoEnv) 1000 1) ∧
    ¬ (∃ K, 1 ≤ K ∧ shrinkSeq (sim_t.quantum demoEnv) 1000 K = 0 ∧
        ∀ j, j < K → demoEnv.mmapOk j (shrinkSeq (sim_t.quantum demoEnv) 1000 j) = false) :=
  have h := C15_shrink_and_retry_result demoEnv 1001 1000 (by decide) (by decide) (by decide)
  ⟨by decide,
   (h.1 908 _).mpr ⟨1, by decide, rfl, by decide, by decide, by decide⟩,
   fun hK => by
     have h1 := h.2.mpr hK
     have h2 : sim_t.allocateFrom demoEnv 1001 1000
         = .ok (908, attempts (sim_t.quantum demoEnv) 1000 1) := rfl
     rw [h2] at h1
     exact absurd h1 (by simp)⟩

theorem stepLoop_dispatchedWhileLive {X : Type} (e : Env X) (n : Nat) (noisy : Bool)
    (hI : e.fits e.INTERLEAVE) (hn : e.fits n)
    (fuel i : Nat) (s s1 : sim_t X) (evs : List Event) (hP : e.fits s.nprocs)
    (hinv : s.inv e) (h : sim_t.stepLoop e n noisy fuel i s = .ok (s1, evs)) :
    dispatchedWhileLive e s.nprocs s.world evs = true := by
  refine stepLoop_induct e n noisy hI hn
    (fun _ s _ evs => dispatchedWhileLive e s.nprocs s.world evs = true)
    ?_ ?_ ?_ ?_ fuel i s s1 evs hP hinv h
  · intro i s _ _
    rfl
  · intro i s _ _ _
    simp [dispatchedWhileLive]
  · intro i s s1 rest _ _ hr _ ih
    have hr2 : (List.range s.nprocs).any (fun i => e.procRunning i (e.tick s.world)) = true := hr
    have ih2 : dispatchedWhileLive e s.nprocs
        (e.procStep s.current_proc (s.batch e n i) noisy (e.tick s.world)) rest = true := ih
    simp [dispatchedWhileLive, hr2, ih2]
  · intro i s s1 rest _ _ hr _ ih
    have hr2 : (List.range s.nprocs).any (fun i => e.procRunning i (e.tick s.world)) = true := hr
    have ih2 : dispatchedWhileLive e s.nprocs
        (e.yield_load_reservation s.current_proc
          (e.procStep s.current_proc (s.batch e n i) noisy (e.tick s.world))) rest = true := ih
    simp [dispatchedWhileLive, hr2, ih2]

/-- C16, as stated, fails: on `demoEnv`, in the state `lateSim` with
`current_proc = 0`, processor 0 is not running after the tick of `step(1)` but
processor 1 is, so the liveness check succeeds and the batch is dispatched to
processor 0. -/
theorem C16_nonrunnable_core_counterexample :
    lateSim.current_proc = 0 ∧
    demoEnv.procRunning 0 (demoEnv.tick lateSim.world) = false ∧
    demoEnv.procRunning 1 (demoEnv.tick lateSim.world) = true ∧
    ∃ s1, sim_t.step demoEnv 2 1 false lateSim
      = .ok (s1, [.tick, .liveness true, .step 0 1 false]) :=
  ⟨rfl, by decide, by decide, _, rfl⟩

/-- C16, amended.  From a state satisfying the invariant, `step(n)` returns and
every batch it dispatches is dispatched at a moment at which some processor of
the vector reports running (`dispatchedWhileLive`); the batch goes to
`current_proc`, whether or not that processor itself is running.  If no
processor is running at the first liveness check, nothing is dispatched. -/
theorem C16_dispatch_needs_some_runnable_core {X : Type} (e : Env X) (fuel n : Nat)
    (noisy : Bool) (s : sim_t X) (hI : e.fits e.INTERLEAVE) (hP : e.fits s.nprocs)
    (hn : e.fits n) (hinv : s.inv e) (hfuel : n < fuel) :
    ∃ s1 evs, sim_t.step e fuel n noisy s = .ok (s1, evs) ∧
      dispatchedWhileLive e s.nprocs s.world evs = true ∧
      batchesSized e.INTERLEAVE s.nprocs n 0 s.current_step s.current_proc evs = true ∧
      ((∀ p, p < s.nprocs → e.procRunning p (e.tick s.world) = false) →
        dispatches evs = []) := by
  obtain ⟨s1, evs, h⟩ := stepLoop_returns e n noisy hI hn fuel 0 s hP hinv (by omega)
  refine ⟨s1, evs, h, stepLoop_dispatchedWhileLive e n noisy hI hn fuel 0 s s1 evs hP hinv h,
    stepLoop_batchesSized e n noisy hI hn fuel 0 s s1 evs hP hinv h, fun hnone => ?_⟩
  obtain ⟨f, rfl⟩ : ∃ f, fuel = f + 1 := ⟨fuel - 1, by omega⟩
  by_cases h0 : 0 < n
  · have hd : sim_t.running e (s.ticked e) = false := running_false_of_all e (s.ticked e) hnone
    have h2 := stepLoop_dead e n noisy f 0 s h0 hd
    rw [h2] at h
    simp only [Except.ok.injEq, Prod.mk.injEq] at h
    rw [← h.2]
    rfl
  · have h2 := stepLoop_exit e n noisy f 0 s (by omega)
    rw [h2] at h
    simp only [Except.ok.injEq, Prod.mk.injEq] at h
    rw [← h.2]
    rfl

/-- C16 amended, on `demoEnv`: fifteen steps asked from `demoSim`. -/
theorem C16_dispatch_needs_some_runnable_core_witness :
    (demoEnv.fits demoEnv.INTERLEAVE ∧ demoEnv.fits demoSim.nprocs ∧ demoEnv.fits 15 ∧
      demoSim.inv demoEnv ∧ 15 < 20) ∧
    ∃ s1 evs, sim_t.step demoEnv 20 15 true demoSim = .ok (s1, evs) ∧
      dispatchedWhileLive demoEnv demoSim.nprocs demoSim.world evs = true ∧
      batchesSized demoEnv.INTERLEAVE demoSim.nprocs 15 0 demoSim.current_step
        demoSim.current_proc evs = true ∧
      ((∀ p, p < demoSim.nprocs → demoEnv.procRunning p (demoEnv.tick demoSim.world) = false) →
        dispatches evs = []) :=
  ⟨by decide,
   C16_dispatch_needs_some_runnable_core demoEnv 20 15 true demoSim (by decide) (by decide)
     (by decide) (by decide) (by decide)⟩

/-! ## Whole-quantum bursts of `run` -/

/-- One call `step(INTERLEAVE, false)` entered with `current_step = 0`, if it
returns, has made one tick and then either found no processor running, or
dispatched one whole quantum to `current_proc`, released its reservation and
rotated. -/
theorem step_burst_ok {X : Type} (e : Env X) (fuel : Nat) (s s1 : sim_t X)
    (evs : List Event) (hI : e.fits e.INTERLEAVE) (hP : e.fits s.nprocs) (hinv : s.inv e)
    (hcs : s.current_step = 0)
    (h : sim_t.step e fuel e.INTERLEAVE false s = .ok (s1, evs)) :
    (sim_t.running e (s.ticked e) = false ∧ s1 = s.ticked e ∧
      evs = [.tick, .liveness false]) ∨
    (sim_t.running e (s.ticked e) = true ∧ s1 = s.afterQuantum e e.INTERLEAVE false ∧
      evs = [.tick, .liveness true, .step s.current_proc e.INTERLEAVE false,
        .yield s.current_proc]) := by
  have hIL : 0 < e.INTERLEAVE := by
    have := hinv.1
    omega
  unfold sim_t.step at h
  cases fuel with
  | zero => simp [sim_t.stepLoop] at h
  | succ f =>
    cases hr : sim_t.running e (s.ticked e) with
    | false =>
      rw [stepLoop_dead e _ false f 0 s hIL hr] at h
      simp only [Except.ok.injEq, Prod.mk.injEq] at h
      exact Or.inl ⟨rfl, h.1.symm, h.2.symm⟩
    | true =>
      have hb : s.batch e e.INTERLEAVE 0 = e.INTERLEAVE := by
        unfold sim_t.batch
        rw [hcs]
        simp
      rw [stepLoop_live e _ false f 0 s hI hP hI hinv hIL hr, hb, if_pos (by rw [hcs]; omega),
        emit_eq_ok] at h
      obtain ⟨rest, hrest, rfl⟩ := h
      cases f with
      | zero => simp [sim_t.stepLoop] at hrest
      | succ f =>
        rw [stepLoop_exit e _ false f _ _ (by omega)] at hrest
        simp only [Except.ok.injEq, Prod.mk.injEq] at hrest
        exact Or.inr ⟨rfl, hrest.1.symm, by rw [← hrest.2]; rfl⟩

/-- With at least two loop tests allowed, the call of `step_burst_ok` returns. -/
theorem step_burst_returns {X : Type} (e : Env X) (fuel : Nat) (s : sim_t X)
    (hI : e.fits e.INTERLEAVE) (hP : e.fits s.nprocs) (hinv : s.inv e)
    (hcs : s.current_step = 0) (hfuel : 2 ≤ fuel) :
    ∃ s1 evs, sim_t.step e fuel e.INTERLEAVE false s = .ok (s1, evs) := by
  have hIL : 0 < e.INTERLEAVE := by
    have := hinv.1
    omega
  obtain ⟨f, rfl⟩ : ∃ f, fuel = f + 1 + 1 := ⟨fuel - 2, by omega⟩
  unfold sim_t.step
  cases hr : sim_t.running e (s.ticked e) with
  | false => exact ⟨_, _, stepLoop_dead e _ false (f + 1) 0 s hIL hr⟩
  | true =>
    have hb : s.batch e e.INTERLEAVE 0 = e.INTERLEAVE := by
      unfold sim_t.batch
      rw [hcs]
      simp
    rw [stepLoop_live e _ false (f + 1) 0 s hI hP hI hinv hIL hr, hb,
      if_pos (by rw [hcs]; omega), stepLoop_exit e _ false f _ _ (by omega)]
    exact ⟨_, _, rfl⟩

theorem run_bursts {X : Type} (e : Env X) (hI : e.fits e.INTERLEAVE) :
    ∀ (fuel : Nat) (s s1 : sim_t X) (evs : List Event), e.fits s.nprocs → s.inv e →
      s.current_step = 0 → s.debug = false → sim_t.run e fuel s = .ok (s1, evs) →
      wholeQuantumBursts e.INTERLEAVE s.nprocs s.current_proc evs = true ∧
        s1.current_step = 0 := by
  intro fuel
  induction fuel with
  | zero =>
    intro s s1 evs _ _ _ _ h
    simp [sim_t.run] at h
  | succ fuel ih =>
    intro s s1 evs hP hinv hcs hdbg h
    cases hd : e.done s.world with
    | true =>
      rw [run_of_done e fuel s hd] at h
      simp only [Except.ok.injEq, Prod.mk.injEq] at h
      rw [← h.1, ← h.2]
      exact ⟨rfl, hcs⟩
    | false =>
      rw [run_of_step e fuel s hd hdbg] at h
      split at h
      · rename_i s2 evs2 hstep
        rw [emit_eq_ok] at h
        obtain ⟨rest, hrest, rfl⟩ := h
        rcases step_burst_ok e fuel s s2 evs2 hI hP hinv hcs hstep
          with ⟨_, rfl, rfl⟩ | ⟨_, rfl, rfl⟩
        · obtain ⟨h1, h2⟩ := ih (s.ticked e) s1 rest hP hinv hcs hdbg hrest
          have h3 : wholeQuantumBursts e.INTERLEAVE s.nprocs s.current_proc rest = true := h1
          exact ⟨by simp [wholeQuantumBursts, h3], h2⟩
        · obtain ⟨h1, h2⟩ := ih (s.afterQuantum e e.INTERLEAVE false) s1 rest hP
            (afterQuantum_inv e _ false s hinv) rfl hdbg hrest
          have h3 : wholeQuantumBursts e.INTERLEAVE s.nprocs
              (if s.current_proc + 1 = s.nprocs then 0 else s.current_proc + 1) rest
                = true := h1
          exact ⟨by simp [wholeQuantumBursts, h3], h2⟩
      · exact absurd h (by simp)

/-- C17 (whole-quantum bursts in batch mode).  Let `debug` be unset,
`current_step = 0` and `current_proc` a valid index.  A call
`step(INTERLEAVE, false)` from such a state returns, having made exactly one
tick and either dispatched nothing (no processor running) or dispatched one
batch of exactly `INTERLEAVE` steps to `current_proc`, followed by one `yield`
and the rotation; in both cases `current_step` is 0 afterwards.  Whenever
`run()` returns, its event list is a sequence of such bursts
(`wholeQuantumBursts`) and `current_step` is 0. -/
theorem C17_whole_quantum_bursts {X : Type} (e : Env X) (s : sim_t X)
    (hI : e.fits e.INTERLEAVE) (hP : e.fits s.nprocs) (hinv : s.inv e)
    (hcs : s.current_step = 0) (hdbg : s.debug = false) :
    (∀ fuel, 2 ≤ fuel →
      ∃ s1 evs, sim_t.step e fuel e.INTERLEAVE false s = .ok (s1, evs) ∧
        s1.current_step = 0 ∧ ticks evs = 1 ∧
        ((sim_t.running e (s.ticked e) = false ∧ s1 = s.ticked e ∧
            evs = [.tick, .liveness false]) ∨
          (sim_t.running e (s.ticked e) = true ∧
            s1 = s.afterQuantum e e.INTERLEAVE false ∧
            evs = [.tick, .liveness true, .step s.current_proc e.INTERLEAVE false,
              .yield s.current_proc]))) ∧
    (∀ fuel s1 evs, sim_t.run e fuel s = .ok (s1, evs) →
      wholeQuantumBursts e.INTERLEAVE s.nprocs s.current_proc evs = true ∧
        s1.current_step = 0) := by
  refine ⟨fun fuel hf => ?_, fun fuel s1 evs h => run_bursts e hI fuel s s1 evs hP hinv hcs hdbg h⟩
  obtain ⟨s1, evs, h⟩ := step_burst_returns e fuel s hI hP hinv hcs hf
  have hb := step_burst_ok e fuel s s1 evs hI hP hinv hcs h
  refine ⟨s1, evs, h, ?_, ?_, hb⟩
  · rcases hb with ⟨_, rfl, _⟩ | ⟨_, rfl, _⟩
    · exact hcs
    · rfl
  · rcases hb with ⟨_, _, rfl⟩ | ⟨_, _, rfl⟩
    · simp [ticks]
    · simp [ticks]

/-- C17 on `demoEnv`: `step(INTERLEAVE, false)` and `run()` from `freshSim`. -/
theorem C17_whole_quantum_bursts_witness :
    (demoEnv.fits demoEnv.INTERLEAVE ∧ demoEnv.fits freshSim.nprocs ∧ freshSim.inv demoEnv ∧
      freshSim.current_step = 0 ∧ freshSim.debug = false ∧ 2 ≤ 2) ∧
    (∃ s1 evs, sim_t.step demoEnv 2 demoEnv.INTERLEAVE false freshSim = .ok (s1, evs) ∧
      s1.current_step = 0 ∧ ticks evs = 1 ∧
      ((sim_t.running demoEnv (freshSim.ticked demoEnv) = false ∧
          s1 = freshSim.ticked demoEnv ∧ evs = [.tick, .liveness false]) ∨
        (sim_t.running demoEnv (freshSim.ticked demoEnv) = true ∧
          s1 = freshSim.afterQuantum demoEnv demoEnv.INTERLEAVE false ∧
          evs = [.tick, .liveness true, .step freshSim.current_proc demoEnv.INTERLEAVE false,
            .yield freshSim.current_proc]))) ∧
    ∃ s1 evs, sim_t.run demoEnv 20 freshSim = .ok (s1, evs) ∧
      wholeQuantumBursts demoEnv.INTERLEAVE freshSim.nprocs freshSim.current_proc evs = true ∧
      s1.current_step = 0 :=
  have h := C17_whole_quantum_bursts demoEnv freshSim (by decide) (by decide) (by decide)
    (by decide) (by decide)
  ⟨by decide, h.1 2 (by decide), _, _, rfl, h.2 20 _ _ rfl⟩

/-! ## Closed form of the scheduling state, termination -/

theorem closed_compose (IL P cs cp a b : Nat) (hIL : 0 < IL) :
    ((cs + a) % IL + b) % IL = (cs + (a + b)) % IL ∧
    ((cp + (cs + a) / IL) % P + ((cs + a) % IL + b) / IL) % P
      = (cp + (cs + (a + b)) / IL) % P := by
  refine ⟨?_, ?_⟩
  · rw [Nat.mod_add_mod, Nat.add_assoc]
  · have h1 : (cs + a) % IL + b + IL * ((cs + a) / IL) = cs + (a + b) := by
      have := Nat.mod_add_div (cs + a) IL
      omega
    have h2 := Nat.add_mul_div_left ((cs + a) % IL + b) ((cs + a) / IL) hIL
    rw [h1] at h2
    rw [Nat.mod_add_mod, h2]
    congr 1
    omega

/-- C18 (closed form of the scheduler state).  From a state satisfying the
invariant, `step(a)` returns, and if none of its liveness checks fails it leaves
`current_step = (cs + a) mod INTERLEAVE` and
`current_proc = (cp + (cs + a) / INTERLEAVE) mod P`, where `cs`, `cp` are the
values on entry and `P = procs.size()`.  A following `step(b)` and a single
`step(a + b)` from the entry state both return, and if no liveness check fails
in any of the three calls, `step(a)` followed by `step(b)` leaves the same
`current_step` and `current_proc` as `step(a + b)`. -/
theorem C18_closed_form_of_scheduler_state {X : Type} (e : Env X) (fuel a b : Nat)
    (noisy : Bool) (s : sim_t X) (hI : e.fits e.INTERLEAVE) (hP : e.fits s.nprocs)
    (hab : e.fits (a + b)) (hinv : s.inv e) (hfuel : a + b < fuel) :
    ∃ s1 evs1, sim_t.step e fuel a noisy s = .ok (s1, evs1) ∧
      ((∀ w, ∃ p, p < s.nprocs ∧ e.procRunning p w = true) → allAlive evs1) ∧
      (allAlive evs1 →
        s1.current_step = (s.current_step + a) % e.INTERLEAVE ∧
        s1.current_proc
          = (s.current_proc + (s.current_step + a) / e.INTERLEAVE) % s.nprocs) ∧
      ∃ s2 evs2 s3 evs3, sim_t.step e fuel b noisy s1 = .ok (s2, evs2) ∧
        sim_t.step e fuel (a + b) noisy s = .ok (s3, evs3) ∧
        (allAlive evs1 → allAlive evs2 → allAlive evs3 →
          s2.current_step = s3.current_step ∧ s2.current_proc = s3.current_proc) := by
  have ha : e.fits a := by
    unfold Env.fits at hab ⊢
    omega
  have hb : e.fits b := by
    unfold Env.fits at hab ⊢
    omega
  have hIL : 0 < e.INTERLEAVE := by
    have := hinv.1
    omega
  obtain ⟨s1, evs1, h1⟩ := stepLoop_returns e a noisy hI ha fuel 0 s hP hinv (by omega)
  obtain ⟨hinv1, hnp1, _, _⟩ := stepLoop_frame e a noisy hI ha fuel 0 s s1 evs1 hP hinv h1
  have hP1 : e.fits s1.nprocs := by rw [hnp1]; exact hP
  obtain ⟨s2, evs2, h2⟩ := stepLoop_returns e b noisy hI hb fuel 0 s1 hP1 hinv1 (by omega)
  obtain ⟨s3, evs3, h3⟩ := stepLoop_returns e (a + b) noisy hI hab fuel 0 s hP hinv (by omega)
  have hc1 := stepLoop_closed e a noisy hI ha fuel 0 s s1 evs1 hP hinv h1
  refine ⟨s1, evs1, h1, stepLoop_allAlive e a noisy hI ha fuel 0 s s1 evs1 hP hinv h1,
    fun hal => ?_, s2, evs2, s3, evs3, h2, h3, fun hal1 hal2 hal3 => ?_⟩
  · obtain ⟨_, _, h4, h5⟩ := hc1 hal
    rw [Nat.sub_zero] at h4 h5
    exact ⟨h4, h5⟩
  · obtain ⟨_, _, h4, h5⟩ := hc1 hal1
    obtain ⟨_, _, h6, h7⟩ := stepLoop_closed e b noisy hI hb fuel 0 s1 s2 evs2 hP1 hinv1 h2 hal2
    obtain ⟨_, _, h8, h9⟩ := stepLoop_closed e (a + b) noisy hI hab fuel 0 s s3 evs3 hP hinv h3
      hal3
    rw [Nat.sub_zero] at h4 h5 h6 h7 h8 h9
    obtain ⟨k1, k2⟩ := closed_compose e.INTERLEAVE s.nprocs s.current_step s.current_proc a b hIL
    rw [h6, h7, h8, h9, h4, h5, hnp1]
    exact ⟨k1, k2⟩

/-- C18 on `liveEnv`: `step(4)` then `step(7)` against `step(11)` from `demoSim`. -/
theorem C18_closed_form_of_scheduler_state_witness :
    (liveEnv.fits liveEnv.INTERLEAVE ∧ liveEnv.fits demoSim.nprocs ∧ liveEnv.fits (4 + 7) ∧
      demoSim.inv liveEnv ∧ 4 + 7 < 12) ∧
    ∃ s1 evs1, sim_t.step liveEnv 12 4 true demoSim = .ok (s1, evs1) ∧
      ((∀ w, ∃ p, p < demoSim.nprocs ∧ liveEnv.procRunning p w = true) → allAlive evs1) ∧
      (allAlive evs1 →
        s1.current_step = (demoSim.current_step + 4) % liveEnv.INTERLEAVE ∧
        s1.current_proc
          = (demoSim.current_proc + (demoSim.current_step + 4) / liveEnv.INTERLEAVE)
            % demoSim.nprocs) ∧
      ∃ s2 evs2 s3 evs3, sim_t.step liveEnv 12 7 true s1 = .ok (s2, evs2) ∧
        sim_t.step liveEnv 12 (4 + 7) true demoSim = .ok (s3, evs3) ∧
        (allAlive evs1 → allAlive evs2 → allAlive evs3 →
          s2.current_step = s3.current_step ∧ s2.current_proc = s3.current_proc) :=
  ⟨by decide,
   C18_closed_form_of_scheduler_state liveEnv 12 4 7 true demoSim (by decide) (by decide)
     (by decide) (by decide) (by decide)⟩

/-- Against a mapper that refuses every request, the retry loop given more
iterations than its entry size ends in the assertion. -/
theorem shrinkLoop_all_refused {X : Type} (e : Env X) (q : Nat)
    (hfail : ∀ j len, e.mmapOk j len = false) :
    ∀ (fuel k x : Nat), x < fuel →
      sim_t.shrinkLoop e q fuel k x = .error .assertFailed := by
  intro fuel
  induction fuel with
  | zero =>
    intro k x h
    omega
  | succ fuel ih =>
    intro k x hx
    by_cases h0 : e.wmul x 10 / 11 / q * q = 0
    · simp [sim_t.shrinkLoop, h0]
    · have hle := shrink_le e q x
      have hne : e.wmul x 10 / 11 / q * q ≠ x := by
        intro heq
        rcases Nat.eq_zero_or_pos x with hx0 | hx0
        · rw [hx0, shrink_zero] at h0
          exact h0 rfl
        · have := shrink_lt e q x hx0
          omega
      have hunf : sim_t.shrinkLoop e q (fuel + 1) k x
          = emit [.mmap (e.wmul x 10 / 11 / q * q) false]
              (sim_t.shrinkLoop e q fuel (k + 1) (e.wmul x 10 / 11 / q * q)) := by
        simp [sim_t.shrinkLoop, h0, hfail]
      rw [hunf, ih (k + 1) _ (by omega)]
      rfl

/-- C19 (the shrink loop always terminates).  For every size `s > 0` and every
quantum `q >= 1`, the update of line 34, `((s * 10) mod 2^w) / 11 / q * q` with
`w` the width of `size_t`, is strictly smaller than `s`, whether or not `s * 10`
wraps around.  Hence against a mapper that refuses every request the retry loop
entered with size `s`, given more iterations than `s`, ends in the assertion,
and so does the allocator for every request `m` when given more iterations
than `m`. -/
theorem C19_shrink_loop_terminates {X : Type} (e : Env X) (q s fuel k : Nat)
    (hq : 1 ≤ q) (hs : 0 < s) (hfuel : s < fuel)
    (hfail : ∀ j len, e.mmapOk j len = false) :
    (s * 10) % 2 ^ e.sizeBits / 11 / q * q < s ∧
    e.wmul s 10 / 11 / q * q = (s * 10) % 2 ^ e.sizeBits / 11 / q * q ∧
    sim_t.shrinkLoop e q fuel k s = .error .assertFailed ∧
    (sim_t.quantum e = q → ∀ m, m < fuel →
      sim_t.allocateFrom e fuel m = .error .assertFailed) := by
  refine ⟨shrink_lt e q s hs, rfl, shrinkLoop_all_refused e q hfail fuel k s hfuel, ?_⟩
  intro hqe m hm
  have hq0 : sim_t.quantum e ≠ 0 := by omega
  have hle : m / sim_t.quantum e * sim_t.quantum e ≤ m := Nat.div_mul_le_self _ _
  have hunf : sim_t.allocateFrom e fuel m
      = emit [.mmap (m / sim_t.quantum e * sim_t.quantum e) false]
          (sim_t.shrinkLoop e (sim_t.quantum e) fuel 1
            (m / sim_t.quantum e * sim_t.quantum e)) := by
    simp [sim_t.allocateFrom, hq0, hfail]
  rw [hunf, shrinkLoop_all_refused e _ hfail fuel 1 _ (by omega)]
  rfl

/-- C19 on `fullEnv`, at a size whose tenfold wraps around 64 bits. -/
theorem C19_shrink_loop_terminates_witness :
    (1 ≤ 4 ∧ 0 < 10 ^ 19 ∧ 10 ^ 19 < 10 ^ 19 + 1 ∧ 2 ^ 64 ≤ 10 ^ 19 * 10 ∧
      ∀ j len, fullEnv.mmapOk j len = false) ∧
    (10 ^ 19 * 10) % 2 ^ fullEnv.sizeBits / 11 / 4 * 4 < 10 ^ 19 ∧
    fullEnv.wmul (10 ^ 19) 10 / 11 / 4 * 4
      = (10 ^ 19 * 10) % 2 ^ fullEnv.sizeBits / 11 / 4 * 4 ∧
    sim_t.shrinkLoop fullEnv 4 (10 ^ 19 + 1) 1 (10 ^ 19) = .error .assertFailed ∧
    (sim_t.quantum fullEnv = 4 → ∀ m, m < 10 ^ 19 + 1 →
      sim_t.allocateFrom fullEnv (10 ^ 19 + 1) m = .error .assertFailed) :=
  ⟨⟨by decide, by norm_num, by norm_num, by norm_num, fun _ _ => rfl⟩,
   C19_shrink_loop_terminates fullEnv 4 (10 ^ 19) (10 ^ 19 + 1) 1 (by decide) (by norm_num)
     (by norm_num) (fun _ _ => rfl)⟩

theorem ticks_batch (p k : Nat) (b : Bool) (rest : List Event) :
    ticks ([.tick, .liveness true, .step p k b] ++ rest) = ticks rest + 1 := by
  simp [ticks, List.count_cons]

theorem ticks_quantum (p k : Nat) (b : Bool) (rest : List Event) :
    ticks ([.tick, .liveness true, .step p k b, .yield p] ++ rest) = ticks rest + 1 := by
  simp [ticks, List.count_cons]

/-- Every batch of a returning call of the loop has at least one step, so the
call makes at most `n - i` ticks and at most `n - i` dispatches. -/
theorem stepLoop_progress {X : Type} (e : Env X) (n : Nat) (noisy : Bool)
    (hI : e.fits e.INTERLEAVE) (hn : e.fits n)
    (fuel i : Nat) (s s1 : sim_t X) (evs : List Event) (hP : e.fits s.nprocs)
    (hinv : s.inv e) (h : sim_t.stepLoop e n noisy fuel i s = .ok (s1, evs)) :
    (∀ d, d ∈ dispatches evs → 1 ≤ d.2) ∧ ticks evs ≤ n - i ∧
      (dispatches evs).length ≤ n - i := by
  refine stepLoop_induct e n noisy hI hn
    (fun i _ _ evs => (∀ d, d ∈ dispatches evs → 1 ≤ d.2) ∧ ticks evs ≤ n - i ∧
      (dispatches evs).length ≤ n - i)
    ?_ ?_ ?_ ?_ fuel i s s1 evs hP hinv h
  · intro i s _ _
    simp [dispatches, ticks]
  · intro i s hi _ _
    refine ⟨by simp [dispatches], ?_, by simp [dispatches]⟩
    have : ticks [Event.tick, Event.liveness false] = 1 := by simp [ticks, List.count_cons]
    omega
  · intro i s s1 rest hi hinv _ _ ih
    obtain ⟨ih1, ih2, ih3⟩ := ih
    have hkp := batch_pos e n i s hi hinv
    have hkl := batch_le_left e n i s
    rw [dispatches_batch, ticks_batch]
    refine ⟨?_, by omega, by simp only [List.length_cons]; omega⟩
    intro d hd
    rcases List.mem_cons.mp hd with rfl | hd
    · exact hkp
    · exact ih1 d hd
  · intro i s s1 rest hi hinv _ _ ih
    obtain ⟨ih1, ih2, ih3⟩ := ih
    have hkp := batch_pos e n i s hi hinv
    have hkl := batch_le_left e n i s
    rw [dispatches_quantum, ticks_quantum]
    refine ⟨?_, by omega, by simp only [List.length_cons]; omega⟩
    intro d hd
    rcases List.mem_cons.mp hd with rfl | hd
    · exact hkp
    · exact ih1 d hd

/-- C20 (`step(n)` makes progress on every iteration).  Let `step(n)` be entered
with `current_step < INTERLEAVE`.  If `current_proc` is a valid index, the call
returns within `n + 1` loop tests.  Whenever it returns, every batch it
dispatched has at least one step, and it made at most `n` ticks and at most `n`
dispatches.  `step(0)` returns the state unchanged without any collaborator
call. -/
theorem C20_step_makes_progress {X : Type} (e : Env X) (fuel n : Nat) (noisy : Bool)
    (s : sim_t X) (hI : e.fits e.INTERLEAVE) (hP : e.fits s.nprocs) (hn : e.fits n)
    (hcs : s.current_step < e.INTERLEAVE) :
    (s.current_proc < s.nprocs → n < fuel →
      ∃ s1 evs, sim_t.step e fuel n noisy s = .ok (s1, evs)) ∧
    (∀ s1 evs, sim_t.step e fuel n noisy s = .ok (s1, evs) →
      (∀ d, d ∈ dispatches evs → 1 ≤ d.2) ∧ ticks evs ≤ n ∧
        (dispatches evs).length ≤ n) ∧
    (0 < fuel → sim_t.step e fuel 0 noisy s = .ok (s, [])) := by
  refine ⟨fun hcp hf => stepLoop_returns e n noisy hI hn fuel 0 s hP ⟨hcs, hcp⟩ (by omega),
    fun s1 evs h => ?_, fun hf => ?_⟩
  · by_cases hcp : s.current_proc < s.nprocs
    · have := stepLoop_progress e n noisy hI hn fuel 0 s s1 evs hP ⟨hcs, hcp⟩ h
      rw [Nat.sub_zero] at this
      exact this
    · rcases stepLoop_stray e n noisy fuel 0 s s1 evs hcp h with ⟨_, rfl⟩ | ⟨h0, rfl⟩
      · simp [dispatches, ticks]
      · refine ⟨by simp [dispatches], ?_, by simp [dispatches]⟩
        have : ticks [Event.tick, Event.liveness false] = 1 := by simp [ticks, List.count_cons]
        omega
  · obtain ⟨f, rfl⟩ : ∃ f, fuel = f + 1 := ⟨fuel - 1, by omega⟩
    exact stepLoop_exit e 0 noisy f 0 s (Nat.le_refl 0)

/-- C20 on `demoEnv`: fifteen steps and zero steps asked from `demoSim`. -/
theorem C20_step_makes_progress_witness :
    (demoEnv.fits demoEnv.INTERLEAVE ∧ demoEnv.fits demoSim.nprocs ∧ demoEnv.fits 15 ∧
      demoEnv.fits 0 ∧ demoSim.current_step < demoEnv.INTERLEAVE ∧
      demoSim.current_proc < demoSim.nprocs ∧ 15 < 16 ∧ 0 < 1) ∧
    (∃ s1 evs, sim_t.step demoEnv 16 15 true demoSim = .ok (s1, evs) ∧
      (∀ d, d ∈ dispatches evs → 1 ≤ d.2) ∧ ticks evs ≤ 15 ∧
        (dispatches evs).length ≤ 15) ∧
    sim_t.step demoEnv 1 0 true demoSim = .ok (demoSim, []) :=
  have h := C20_step_makes_progress demoEnv 16 15 true demoSim (by decide) (by decide)
    (by decide) (by decide)
  ⟨by decide, ⟨_, _, rfl, h.2.1 _ _ rfl⟩,
   (C20_step_makes_progress demoEnv 1 0 true demoSim (by decide) (by decide) (by decide)
     (by decide)).2.2 (by decide)⟩

end Spike
